import Mathlib

/-!
# Verification of the API-Doc-Parser specification

A shallow embedding of the core of the API-Doc-Parser repository
(TypeScript) in Lean 4, together with theorems settling the claims of
the specification against the code.

Embedding conventions:
* JavaScript strings are Lean `String`s (ASCII data; `toLowerCase`,
  `includes`, `split(/\s+/)` are modelled by executable functions below).
* `JSON.parse`/network/LLM calls are abstracted: fallible collaborators
  become explicit `Except`/oracle parameters.
* In-place mutation of arrays becomes explicit state passing; a
  "defensive deep copy" is the identity in a pure value semantics.
-/

/-- ASCII lower-casing of a character, as JavaScript `toLowerCase`
behaves on the ASCII range (all data relevant to this repository). -/
def asciiLower (c : Char) : Char :=
  if 'A' ≤ c ∧ c ≤ 'Z' then Char.ofNat (c.toNat + 32) else c

/-- JS `String.prototype.toLowerCase` (ASCII range). -/
def lowerStr (s : String) : String := String.mk (s.data.map asciiLower)

/-- Auxiliary scan for `strIncludes`. -/
def includesAux (needle : List Char) : List Char → Bool
  | [] => needle.isEmpty
  | c :: t => needle.isPrefixOf (c :: t) || includesAux needle t

/-- JS `haystack.includes(needle)`. -/
def strIncludes (haystack needle : String) : Bool :=
  includesAux needle.data haystack.data

/-- JS `s.startsWith(p)`. -/
def strStartsWith (s p : String) : Bool := p.data.isPrefixOf s.data

/-- JS `s.endsWith(p)`. -/
def strEndsWith (s p : String) : Bool := p.data.isSuffixOf s.data

/-- The characters matched by the JS regex class `\s` (common set). -/
def isJsWs (c : Char) : Bool :=
  c = ' ' || c = '\t' || c = '\n' || c = '\r' || c = '\x0b' || c = '\x0c'

/-- The characters matched by the JS regex class `\w`. -/
def isWordChar (c : Char) : Bool :=
  ('a' ≤ c && c ≤ 'z') || ('A' ≤ c && c ≤ 'Z') || ('0' ≤ c && c ≤ '9') || c = '_'

/-- Auxiliary recursion for `jsSplitWs`: `some acc` means a chunk
(reversed) is being accumulated, `none` means a whitespace run is being
skipped. -/
def jsSplitWsAux : List Char → Option (List Char) → List String
  | [], some acc => [String.mk acc.reverse]
  | [], none => [""]
  | c :: t, some acc =>
    if isJsWs c then String.mk acc.reverse :: jsSplitWsAux t none
    else jsSplitWsAux t (some (c :: acc))
  | c :: t, none =>
    if isJsWs c then jsSplitWsAux t none
    else jsSplitWsAux t (some [c])

/-- JS `s.split(/\s+/)` (including the empty chunks JS produces at a
leading or trailing whitespace run). -/
def jsSplitWs (s : String) : List String := jsSplitWsAux s.data (some [])

/-- Left brace as a string (written via an escape for tooling reasons). -/
def lbrace : String := "\x7b"

/-- Right brace as a string (written via an escape for tooling reasons). -/
def rbrace : String := "\x7d"

/-- JSON quoting of a plain string.  No escaping is performed: the
embedding's data universe is strings without `"` or `\` characters,
which covers all inputs evaluated in this development. -/
def jsonQuote (s : String) : String := "\"" ++ s ++ "\""

/-- `JSON.stringify` of a record of strings, in insertion order. -/
def jsonStrPairs (l : List (String × String)) : String :=
  lbrace ++ String.intercalate "," (l.map (fun kv => jsonQuote kv.1 ++ ":" ++ jsonQuote kv.2)) ++ rbrace

/-- A resolved prerequisite reference (interface `PrerequisiteReference`). -/
structure PrerequisiteReference where
  id : String
  description : String
  action_name : String
deriving DecidableEq, Repr

/-- A `prerequisites` entry value: either an unresolved free-text string
or a resolved `PrerequisiteReference` (the TS union `string | PrerequisiteReference`). -/
inductive PrereqValue where
  | str (s : String)
  | ref (r : PrerequisiteReference)
deriving DecidableEq, Repr

/-- The `api_config` part of an Action.  The TS type additionally allows
arbitrary extra keys; the embedding's data universe keeps the two
required ones, which are the only ones the core algorithms read. -/
structure ApiConfig where
  url : String
  method : String
deriving DecidableEq, Repr

/-- The `ProcessedApiData` record ("Action").  `inputs` and
`response_schema` are open-ended records in TS; the embedding's data
universe instantiates them with string-valued records, preserving key
order (JS object insertion order). -/
structure ProcessedApiData where
  id : String
  step_name : String
  action : String
  inputs : List (String × String)
  prerequisites : List (String × PrereqValue)
  api_config : ApiConfig
  response_schema : List (String × String)
deriving DecidableEq, Repr

/-- `JSON.stringify` of a prerequisite entry value. -/
def stringifyPrereqValue : PrereqValue → String
  | .str s => jsonQuote s
  | .ref r =>
    lbrace ++ jsonQuote "id" ++ ":" ++ jsonQuote r.id ++ "," ++
      jsonQuote "description" ++ ":" ++ jsonQuote r.description ++ "," ++
      jsonQuote "action_name" ++ ":" ++ jsonQuote r.action_name ++ rbrace

/-- `JSON.stringify(action)`: compact JSON, keys in declaration order,
as `JSON.stringify` produces for objects built from the parser. -/
def stringifyAction (a : ProcessedApiData) : String :=
  lbrace ++ jsonQuote "id" ++ ":" ++ jsonQuote a.id ++ "," ++
    jsonQuote "step_name" ++ ":" ++ jsonQuote a.step_name ++ "," ++
    jsonQuote "action" ++ ":" ++ jsonQuote a.action ++ "," ++
    jsonQuote "inputs" ++ ":" ++ jsonStrPairs a.inputs ++ "," ++
    jsonQuote "prerequisites" ++ ":" ++
      (lbrace ++ String.intercalate ","
        (a.prerequisites.map (fun kv => jsonQuote kv.1 ++ ":" ++ stringifyPrereqValue kv.2)) ++ rbrace) ++ "," ++
    jsonQuote "api_config" ++ ":" ++
      (lbrace ++ jsonQuote "url" ++ ":" ++ jsonQuote a.api_config.url ++ "," ++
        jsonQuote "method" ++ ":" ++ jsonQuote a.api_config.method ++ rbrace) ++ "," ++
    jsonQuote "response_schema" ++ ":" ++ jsonStrPairs a.response_schema ++ rbrace

/-- The placeholder markers of `isTemplateResponse` (identical in
`2-processing` and `util/ai.ts`). -/
def placeholderTexts : List String :=
  ["REPLACE WITH", "ACTUAL API", "REPLACE THIS", "EXAMPLE", "PLACEHOLDER"]

/-- `isTemplateResponse(action)`: placeholder text in `step_name`,
`action`, or `api_config.url`. -/
def isTemplateResponse (a : ProcessedApiData) : Bool :=
  placeholderTexts.any (fun t => strIncludes a.step_name t || strIncludes a.action t) ||
    placeholderTexts.any (fun t => strIncludes a.api_config.url t)

/-- `validateAndCleanActions(actions)`: drop template responses and
actions with a missing required field.  JS falsiness of a missing or
empty string field is modelled by the empty string (`api_config` itself
is always present in the embedding's data universe). -/
def validateAndCleanActions (actions : List ProcessedApiData) : List ProcessedApiData :=
  actions.filter (fun a =>
    !isTemplateResponse a &&
      !(a.id = "" || a.step_name = "" || a.action = "" || a.api_config.url = ""))

/-- The stop-word list of the `util/ai.ts` heuristic. -/
def aiStopwords : List String :=
  ["must", "have", "need", "required", "should", "with", "your",
   "this", "that", "these", "those", "will", "been", "being",
   "from", "they", "them", "their", "there", "here", "where",
   "when", "what", "which", "who", "whom", "whose", "how"]

/-- `util/ai.ts`: the `prereqWords` extraction (lower-case, split on
whitespace, keep words longer than 3 characters that are not stop words). -/
def prereqWordsAi (text : String) : List String :=
  (jsSplitWs (lowerStr text)).filter
    (fun w => w.length > 3 && !(aiStopwords.contains w))

/-- The `domainTerms` table of the `util/ai.ts` heuristic. -/
def domainTerms : List (String × List String) :=
  [("register", ["account", "user", "signup", "create"]),
   ("authenticate", ["login", "token", "key", "credential"]),
   ("verify", ["confirm", "validate", "check"]),
   ("permission", ["access", "right", "authorize"]),
   ("setup", ["configure", "setting", "initialize"])]

/-- The relevance score computed by `findMostRelevantActionHeuristic`
in `util/ai.ts` (lines 468-578) for one candidate action. -/
def aiScore (prereqText : String) (a : ProcessedApiData) : Int :=
  let lowerPrereq := lowerStr prereqText
  let words := prereqWordsAi prereqText
  let lowerActionName := lowerStr a.step_name
  let nameScore : Int :=
    if lowerActionName = lowerPrereq then 10
    else if strIncludes lowerActionName lowerPrereq || strIncludes lowerPrereq lowerActionName then 5
    else 0
  let inputsJson := lowerStr (jsonStrPairs a.inputs)
  let inputScore : Int := 2 * ((words.filter (fun w => strIncludes inputsJson w)).length : Int)
  let actionJson := lowerStr (stringifyAction a)
  let matchingKeywords := (words.filter (fun w => strIncludes actionJson w)).length
  let keywordScore : Int := (matchingKeywords : Int)
  let pctBonus : Int :=
    if words.length > 0 then
      if matchingKeywords * 10 > 7 * words.length then 3
      else if matchingKeywords * 10 > 5 * words.length then 2
      else 0
    else 0
  let domainBonus : Int :=
    (domainTerms.map (fun tr =>
      if strIncludes lowerPrereq tr.1 && tr.2.any (fun rt => strIncludes actionJson rt)
      then (2 : Int) else 0)).sum
  nameScore + inputScore + keywordScore + pctBonus + domainBonus

/-- One comparison step of `pickTop`: keep the strictly higher score,
ties keeping the earlier candidate. -/
def pickStep (best : Option (ProcessedApiData × Int)) (x : ProcessedApiData × Int) :
    Option (ProcessedApiData × Int) :=
  match best with
  | none => some x
  | some b => if x.2 > b.2 then some x else some b

/-- First maximum of a scored candidate list: the element a stable
descending sort by score (JS `sort((a,b) => b.score - a.score)`, stable
per the ECMAScript spec) places first. -/
def pickTop (l : List (ProcessedApiData × Int)) : Option (ProcessedApiData × Int) :=
  l.foldl pickStep none

/-- `findMostRelevantActionHeuristic` of `util/ai.ts`: filter out the
current action, score, and return the top candidate if it scores at
least 5. -/
def findMostRelevantActionHeuristicAi (prereqText : String)
    (actions : List ProcessedApiData) (currentActionId : String) :
    Option ProcessedApiData :=
  let otherActions := actions.filter (fun a => a.id ≠ currentActionId)
  if otherActions.isEmpty then none
  else
    match pickTop (otherActions.map (fun a => (a, aiScore prereqText a))) with
    | some (a, sc) => if sc ≥ 5 then some a else none
    | none => none

/-- The stop-word list of the `2-processing` (part_000) heuristic. -/
def p0Stopwords : List String :=
  ["must", "have", "need", "requires", "required", "should", "with", "that", "this", "from", "your"]

/-- part_000 `keyTerms`: lower-case, replace non-word non-space
characters by spaces, split, keep words longer than 3 characters not in
the stop-word list. -/
def keyTermsP0 (text : String) : List String :=
  let lower := lowerStr text
  let cleaned := String.mk (lower.data.map (fun c => if isWordChar c || isJsWs c then c else ' '))
  (jsSplitWs cleaned).filter (fun w => w.length > 3 && !(p0Stopwords.contains w))

/-- part_000 `actionText`: the serialized matching fields of a candidate
(step name, action, input keys, url, method), lower-cased. -/
def p0ActionText (a : ProcessedApiData) : String :=
  lowerStr (String.intercalate " "
    [a.step_name, a.action, String.intercalate " " (a.inputs.map (fun kv => kv.1)),
     a.api_config.url, a.api_config.method])

/-- The relevance score computed by `findMostRelevantActionHeuristic`
in part_000 (`3-linking`, lines 1111-1190) for one candidate. -/
def p0Score (prereqText : String) (currentActionId : String) (a : ProcessedApiData) : Int :=
  if a.id = currentActionId then -1
  else
    let lowerPrereq := lowerStr prereqText
    let terms := keyTermsP0 prereqText
    let actionText := p0ActionText a
    let base : Int :=
      ((terms.map (fun term =>
        if strIncludes actionText term then
          (1 : Int) + (if strIncludes (lowerStr a.step_name) term ||
                          strIncludes (lowerStr a.action) term then 2 else 0)
        else 0)).sum)
    let registerBoost : Int :=
      if (strIncludes lowerPrereq "register" || strIncludes lowerPrereq "create" ||
            strIncludes lowerPrereq "setup" || strIncludes lowerPrereq "set up") &&
          (strIncludes a.action "create" || strIncludes a.action "register" ||
            strIncludes a.action "setup")
      then 3 else 0
    let verifyBoost : Int :=
      if (strIncludes lowerPrereq "verify" || strIncludes lowerPrereq "confirm" ||
            strIncludes lowerPrereq "validate") &&
          (strIncludes a.action "verify" || strIncludes a.action "confirm" ||
            strIncludes a.action "validate")
      then 3 else 0
    base + registerBoost + verifyBoost

/-- part_000 `findMostRelevantActionHeuristic`: score the candidates and
return the top one if its score is positive. -/
def findMostRelevantActionHeuristicP0 (prereqText : String)
    (actions : List ProcessedApiData) (currentActionId : String) :
    Option ProcessedApiData :=
  if actions.isEmpty then none
  else
    match pickTop (actions.map (fun a => (a, p0Score prereqText currentActionId a))) with
    | some (a, sc) => if sc > 0 then some a else none
    | none => none

/-- A matcher: the "find the most relevant action for this prerequisite
text" collaborator of the linker (`findRelevantActionWithAI` /
`findMostRelevantAction`).  The linkers are stated over an arbitrary
matcher; the concrete no-credential instances below are the heuristics
the source falls back to. -/
abbrev Matcher := String → List ProcessedApiData → String → Option ProcessedApiData

/-- part_000 `findRelevantActionWithAI` with no API key: filter out the
current action, return `null` on an empty remainder, otherwise run the
heuristic. -/
def matcherP0 : Matcher := fun text actions currentActionId =>
  let otherActions := actions.filter (fun a => a.id ≠ currentActionId)
  if otherActions.isEmpty then none
  else findMostRelevantActionHeuristicP0 text otherActions currentActionId

/-- `util/ai.ts` `findMostRelevantAction` with no API key: straight to
the heuristic (which itself filters and may return `null`). -/
def matcherAi : Matcher := findMostRelevantActionHeuristicAi

/-- Replace the value stored at key `k` of an action's prerequisites
(JS `action.prerequisites[key] = value`; keys of a JS object are unique). -/
def setPrereq (a : ProcessedApiData) (k : String) (v : PrereqValue) : ProcessedApiData :=
  { a with prerequisites := a.prerequisites.map (fun kv => if kv.1 = k then (kv.1, v) else kv) }

/-- Update the `i`-th element of a list in place. -/
def updAt : List α → Nat → (α → α) → List α
  | [], _, _ => []
  | a :: t, 0, f => f a :: t
  | a :: t, n + 1, f => a :: updAt t n f

/-- One step of the per-action prerequisite loop: already-resolved
references are skipped, `skipShort` additionally skips strings shorter
than 10 characters (the `util/ai.ts` linker only), and an accepted
match rewrites the entry — in the evolving state `st2` — into a
`PrerequisiteReference` carrying the matched action's id, the original
text as description, and the matched action's step name. -/
def linkEntryStep (skipShort : Bool) (m : Matcher) (i : Nat) (aid : String)
    (st2 : List ProcessedApiData) (kv : String × PrereqValue) : List ProcessedApiData :=
  match kv.2 with
  | .ref _ => st2
  | .str s =>
    if skipShort ∧ s.length < 10 then st2
    else
      match m s st2 aid with
      | none => st2
      | some r => updAt st2 i (fun act => setPrereq act kv.1 (.ref ⟨r.id, s, r.step_name⟩))

/-- Process all prerequisite entries of the `i`-th action: the entry
snapshot is taken up front (JS `Object.entries`), then each entry goes
through `linkEntryStep` against the evolving collection. -/
def linkOneAction (skipShort : Bool) (m : Matcher)
    (st : List ProcessedApiData) (i : Nat) : List ProcessedApiData :=
  match st.get? i with
  | none => st
  | some a => a.prerequisites.foldl (linkEntryStep skipShort m i a.id) st

/-- One full linking pass over the action collection, mirroring the
`for (const action of linkedActions)` loop with its in-place rewrites. -/
def linkPass (skipShort : Bool) (m : Matcher) (s : List ProcessedApiData) : List ProcessedApiData :=
  (List.range s.length).foldl (linkOneAction skipShort m) s

/-- part_000 `linkActionPrerequisites` (lines 1199-1242): deep-copy (the
identity in a pure value semantics) and link every action's string
prerequisites; no validation, no length threshold. -/
def linkActionPrerequisitesP0 (m : Matcher) (actions : List ProcessedApiData) : List ProcessedApiData :=
  linkPass false m actions

namespace AiTs

/-- `util/ai.ts` `linkActionPrerequisites` (lines 365-430): return the
input unchanged for collections of at most one action or with no valid
member, otherwise link a deep copy of the validated actions, skipping
prerequisite strings shorter than 10 characters. -/
def linkActionPrerequisites (m : Matcher) (actions : List ProcessedApiData) : List ProcessedApiData :=
  if actions.length ≤ 1 then actions
  else if (validateAndCleanActions actions).isEmpty then actions
  else linkPass true m (validateAndCleanActions actions)

end AiTs

/-- An element of the tiny regex language needed by the classifiers:
case-insensitive literals, single-character classes, greedy `+`/`*`
runs, an optional literal, and the word-boundary assertion `\b`. -/
inductive RElem where
  | lit (c : Char)
  | one (f : Char → Bool)
  | many1 (f : Char → Bool)
  | many0 (f : Char → Bool)
  | opt (c : Char)
  | wb

/-- ASCII letters (the class `[A-Za-z]`, or `[A-Z]` under the `i` flag). -/
def isAsciiAlpha (c : Char) : Bool :=
  ('a' ≤ c && c ≤ 'z') || ('A' ≤ c && c ≤ 'Z')

/-- The class `[0-9]` (`\d`). -/
def isDigitChar (c : Char) : Bool := '0' ≤ c && c ≤ '9'

/-- Is the character at index `i` a word character (`\w`)?  Out of range
counts as a non-word position. -/
def wordAt (t : List Char) (i : Nat) : Bool :=
  match t.get? i with
  | some c => isWordChar c
  | none => false

/-- The `\b` assertion at index `i`: a word/non-word transition, with
both ends of the text counting as non-word positions. -/
def boundaryAt (t : List Char) (i : Nat) : Bool :=
  (if i = 0 then false else wordAt t (i - 1)) != wordAt t i

/-- Length of the maximal run of `f`-characters starting at index `i`. -/
def runLen (f : Char → Bool) (t : List Char) (i : Nat) : Nat :=
  ((t.drop i).takeWhile f).length

/-- Candidate end positions (in backtracking preference order) for one
regex element at position `i`. -/
def elemEnds (t : List Char) (i : Nat) : RElem → List Nat
  | .lit c =>
    match t.get? i with
    | some d => if asciiLower d = c then [i + 1] else []
    | none => []
  | .one f =>
    match t.get? i with
    | some d => if f d then [i + 1] else []
    | none => []
  | .many1 f =>
    let m := runLen f t i
    (List.range m).map (fun k => i + m - k)
  | .many0 f =>
    let m := runLen f t i
    (List.range (m + 1)).map (fun k => i + m - k)
  | .opt c =>
    match t.get? i with
    | some d => if asciiLower d = c then [i + 1, i] else [i]
    | none => [i]
  | .wb => if boundaryAt t i then [i] else []

/-- All end positions at which the pattern can match starting at `i`,
in backtracking preference order (the head is the end the JS engine
selects). -/
def matchEnds (t : List Char) : List RElem → Nat → List Nat
  | [], i => [i]
  | e :: rest, i => (elemEnds t i e).flatMap (fun j => matchEnds t rest j)

/-- The end position the JS engine selects for a match starting at `i`,
if any. -/
def matchFrom (t : List Char) (p : List RElem) (i : Nat) : Option Nat :=
  (matchEnds t p i).head?

/-- Global scan (the `g` flag): left-to-right, taking each leftmost
match with its selected end and resuming after it (advancing at least
one position).  `fuel` is a structural-recursion bound; `t.length + 1`
suffices from position `0`. -/
def scanFrom (t : List Char) (p : List RElem) : Nat → Nat → List (Nat × Nat)
  | 0, _ => []
  | fuel + 1, i =>
    if t.length < i then []
    else
      match matchFrom t p i with
      | some e => (i, e) :: scanFrom t p fuel (max e (i + 1))
      | none => scanFrom t p fuel (i + 1)

/-- The list of (start, end) spans `text.match(/pattern/g)` produces. -/
def scanMatches (t : List Char) (p : List RElem) : List (Nat × Nat) :=
  scanFrom t p (t.length + 1) 0

/-- `text.match(/pattern/g)?.length || 0`. -/
def scanCount (t : List Char) (p : List RElem) : Nat := (scanMatches t p).length

/-- `/pattern/.test(text)`. -/
def hasMatch (t : List Char) (p : List RElem) : Bool := !(scanMatches t p).isEmpty

/-- The substring of `t` covered by a span. -/
def spanStr (t : List Char) (ie : Nat × Nat) : String :=
  String.mk ((t.drop ie.1).take (ie.2 - ie.1))

/-- A case-insensitive literal word as a pattern fragment. -/
def litP (s : String) : List RElem := s.data.map (fun c => RElem.lit (asciiLower c))

/-- The `\b` fragment. -/
def wbP : List RElem := [RElem.wb]

/-- The `\s+` fragment. -/
def wsPlus : List RElem := [RElem.many1 isJsWs]

/-- The `\s*` fragment. -/
def wsStar : List RElem := [RElem.many0 isJsWs]

/-- The class `[\/\w]`. -/
def isPathChar (c : Char) : Bool := c = '/' || isWordChar c

/-- The class `[^\s"']`. -/
def isUrlChar (c : Char) : Bool := !(isJsWs c || c = '"' || c = '\'')

/-- `\bMETHOD\s+[\/\w]+` for an HTTP verb. -/
def methodPathPat (m : String) : List RElem :=
  wbP ++ litP m ++ wsPlus ++ [RElem.many1 isPathChar]

/-- `\bWORD\b` (case-insensitive). -/
def wordPat (w : String) : List RElem := wbP ++ litP w ++ wbP

/-- The ten `endpointIndicators` regexes of `detectMultipleApiEndpoints`. -/
def endpointIndicatorPats : List (List RElem) :=
  [methodPathPat "GET", methodPathPat "POST", methodPathPat "PUT",
   methodPathPat "DELETE", methodPathPat "PATCH",
   wbP ++ litP "API" ++ wsPlus ++ litP "Endpoint" ++ wbP,
   wbP ++ litP "Endpoint" ++ wsStar ++ litP ":",
   wbP ++ litP "URL" ++ wsStar ++ litP ":",
   wbP ++ litP "Request" ++ wsPlus ++ litP "URL" ++ wbP,
   wbP ++ litP "HTTP" ++ wsPlus ++ litP "Method" ++ wbP]

/-- The seven `sectionIndicators` regexes. -/
def sectionIndicatorPats : List (List RElem) :=
  [wordPat "Endpoints",
   wbP ++ litP "API" ++ wsPlus ++ litP "Reference" ++ wbP,
   wbP ++ litP "Available" ++ wsPlus ++ litP "Methods" ++ wbP,
   wbP ++ litP "Resource" ++ wsPlus ++ litP "Types" ++ wbP,
   wbP ++ litP "API" ++ wsPlus ++ litP "Resources" ++ wbP,
   wbP ++ litP "List" ++ wsPlus ++ litP "of" ++ wsPlus ++ litP "APIs" ++ wbP,
   wbP ++ litP "API" ++ wsPlus ++ litP "Listing" ++ wbP]

/-- The five HTTP verbs counted via `\bVERB\b`. -/
def httpVerbs : List String := ["GET", "POST", "PUT", "DELETE", "PATCH"]

/-- `/https?:\/\/[^\s"']+\/[^\s"']+/`. -/
def urlPat : List RElem :=
  litP "http" ++ [RElem.opt 's'] ++ litP "://" ++
    [RElem.many1 isUrlChar] ++ litP "/" ++ [RElem.many1 isUrlChar]

/-- `/\b\d+\.\s+[A-Z][a-zA-Z\s]+API\b/` (with the `i` flag). -/
def numberedPat : List RElem :=
  wbP ++ [RElem.many1 isDigitChar] ++ litP "." ++ wsPlus ++
    [RElem.one isAsciiAlpha] ++ [RElem.many1 (fun c => isAsciiAlpha c || isJsWs c)] ++
    litP "API" ++ wbP

/-- `detectMultipleApiEndpoints(content)` (part_000 lines 54-129 and
`util/ai.ts` lines 723-798, identical): the disjunction of the five
trigger conditions. -/
def detectMultipleApiEndpoints (content : String) : Bool :=
  let t := content.data
  let endpointCount := (endpointIndicatorPats.map (fun p => scanCount t p)).sum
  let hasSectionIndicators := sectionIndicatorPats.any (fun p => hasMatch t p)
  let methodsWithMultipleOccurrences :=
    ((httpVerbs.map (fun m => scanCount t (wordPat m))).filter (fun c => 1 < c)).length
  let urlMatches := (scanMatches t urlPat).map (spanStr t)
  let apiUrlPatterns := urlMatches.filter (fun u =>
    strIncludes u "/api/" || strIncludes u "/v1/" || strIncludes u "/v2/" || strIncludes u "/rest/")
  let numberedSections := scanCount t numberedPat
  decide (1 < endpointCount) || hasSectionIndicators ||
    decide (2 ≤ methodsWithMultipleOccurrences) ||
    decide (1 < apiUrlPatterns.length) || decide (0 < numberedSections)

/-- A regex element that can never consume a double-quote character:
appending text behind a `"` separator then leaves the element's
behaviour on earlier positions unchanged. -/
def goodElem : RElem → Bool
  | .lit c => decide (c ≠ '"')
  | .one f => !(f '"')
  | .many1 f => !(f '"')
  | .many0 f => !(f '"')
  | .opt c => decide (c ≠ '"')
  | .wb => true

/-- The fixed vocabulary of `isApiDocumentation`. -/
def apiKeywords : List String :=
  ["api", "endpoint", "request", "response", "method", "parameter",
   "header", "status code", "authentication", "authorization",
   "GET", "POST", "PUT", "DELETE", "PATCH", "REST", "JSON"]

/-- `isApiDocumentation(scrapedData)` (stages/1-scraping.ts lines
29-45): count the vocabulary terms present under case-insensitive
word-boundary matching and compare with 3. -/
def isApiDocumentation (scrapedData : String) : Bool :=
  let keywordCount := apiKeywords.foldl
    (fun count k => count + if hasMatch scrapedData.data (wordPat k) then 1 else 0) 0
  3 ≤ keywordCount

/-- Identity reconciliation of `parseAiResponse` (array mode): walk the
validated actions keeping a set of ids seen so far; a falsy (missing /
empty) id or an id already seen is replaced by a freshly generated one
(`action_${uuidv4()}`, modelled by the generator `gen` applied to a
call counter); every final id is added to the seen set. -/
def assignUniqueIdsAux (gen : Nat → String) :
    List ProcessedApiData → List String → Nat → List ProcessedApiData
  | [], _, _ => []
  | a :: rest, seen, ctr =>
    if a.id = "" then
      { a with id := gen ctr } :: assignUniqueIdsAux gen rest (gen ctr :: seen) (ctr + 1)
    else if seen.contains a.id then
      { a with id := gen ctr } :: assignUniqueIdsAux gen rest (gen ctr :: seen) (ctr + 1)
    else
      a :: assignUniqueIdsAux gen rest (a.id :: seen) ctr

/-- The array branch of `parseAiResponse` after a successful
`JSON.parse` (part_000 lines 440-460 and `util/ai.ts` lines 622-642):
validate and clean, fail when nothing valid remains, then reconcile
ids.  The string-level fence stripping and JSON repair feed this stage
and are orthogonal to the identity claims. -/
def parseAiResponseArray (gen : Nat → String) (parsedData : List ProcessedApiData) :
    Except String (List ProcessedApiData) :=
  let validActions := validateAndCleanActions parsedData
  if validActions.isEmpty then .error "No valid API actions found in the response"
  else .ok (assignUniqueIdsAux gen validActions [] 0)

/-- The per-URL outcome of stage 2 (`ApiResult`): the tagged union of
success (with one Action or an array of Actions), error, and skipped. -/
inductive ApiResult where
  | success (url : String) (result : ProcessedApiData ⊕ List ProcessedApiData) (multipleApis : Bool)
  | error (url : String) (error : String)
  | skipped (url : String) (reason : String)
deriving DecidableEq, Repr

/-- What `scrapeData(url)` yields: the page text, and the verdict
`detectMultipleApisFromHtml($)` of the HTML-structure detector on the
page's element tree (the tree itself lives outside the text model). -/
structure ScrapeResult where
  text : String
  htmlMulti : Bool
deriving DecidableEq, Repr

/-- The external collaborators of `processApiEndpoint`: the page
fetcher (throwing `FetchError`s) and the language model
(`sendToOpenAI`/`sendToGemini`, throwing `ModelError`s), as oracles.
A thrown error is an `Except.error` carrying its message. -/
structure Env where
  scrape : String → Except String ScrapeResult
  send : String → Bool → Except String String

/-- The response parser as a collaborator signature: raw model text to
a single Action or an array of Actions, or a parse failure. -/
abbrev ParseFn := String → Except String (ProcessedApiData ⊕ List ProcessedApiData)

/-- `processApiEndpoint(url, ...)` (part_000 lines 504-558): scrape,
gate on `isApiDocumentation`, detect endpoint multiplicity (text OR
html), ask the model, parse; any failure is caught and becomes an
error-status result for this URL. -/
def processApiEndpoint (parseFn : ParseFn) (env : Env) (url : String) : ApiResult :=
  match env.scrape url with
  | .error e => .error url e
  | .ok sr =>
    if !isApiDocumentation sr.text then
      .skipped url "Not API documentation"
    else
      let hasMultipleApis := detectMultipleApiEndpoints sr.text || sr.htmlMulti
      match env.send sr.text hasMultipleApis with
      | .error e => .error url e
      | .ok result =>
        match parseFn result with
        | .error e => .error url e
        | .ok (.inr arr) => .success url (.inr arr) true
        | .ok (.inl single) => .success url (.inl single) false

/-- The batching loop of `processApiEndpoints`: slices of 5 URLs are
dispatched (`Promise.all` over `batch.map`) and their results appended
in batch order.  `fuel` is a structural bound; the list length
suffices. -/
def chunkedMapF (f : String → ApiResult) : Nat → List String → List ApiResult
  | _, [] => []
  | 0, _ => []
  | fuel + 1, urls => (urls.take 5).map f ++ chunkedMapF f fuel (urls.drop 5)

/-- `processApiEndpoints(apiEndpointUrls, ...)` (part_000 lines
567-584): process the URLs in concurrent batches of 5, collecting
results in submission order. -/
def processApiEndpoints (parseFn : ParseFn) (env : Env) (apiEndpointUrls : List String) :
    List ApiResult :=
  chunkedMapF (processApiEndpoint parseFn env) apiEndpointUrls.length apiEndpointUrls

/-- First index at which `needle` occurs in a character list. -/
def idxOfAux (needle : List Char) : List Char → Nat → Option Nat
  | [], i => if needle.isEmpty then some i else none
  | c :: t, i => if needle.isPrefixOf (c :: t) then some i else idxOfAux needle t (i + 1)

/-- Modelled from the spec: the origin — scheme and host — of an
absolute URL, used to state the claimed same-origin property of
`extractSubsectionUrls`.  (The code itself never computes this;
it only performs a string-prefix test.) -/
def specOrigin (u : String) : String :=
  match idxOfAux "://".data u.data 0 with
  | none => u
  | some i =>
    let scheme := String.mk (u.data.take i)
    let host := String.mk ((u.data.drop (i + 3)).takeWhile
      (fun c => c ≠ '/' && c ≠ '?' && c ≠ '#'))
    scheme ++ "://" ++ host

/-- JS `Set` insertion-order deduplication (`Array.from(new Set(...))`). -/
def dedupAux : List String → List String → List String
  | [], _ => []
  | u :: t, seen => if seen.contains u then dedupAux t seen else u :: dedupAux t (u :: seen)

/-- `extractSubsectionUrls(baseUrl, $)` (stages/1-scraping.ts lines
96-128).  `protocol`/`host` are the components `new URL(baseUrl)`
exposes, `anchors` the `href` attributes of the page's `<a>` elements
in document order, and `resolve` abstracts `new URL(href, domain).toString()`
for relative hrefs. -/
def extractSubsectionUrls (protocol host : String) (resolve : String → String)
    (anchors : List (Option String)) : List String :=
  let domain := protocol ++ "//" ++ host
  dedupAux (anchors.filterMap (fun href? =>
    match href? with
    | none => none
    | some href =>
      if strStartsWith href "#" || strStartsWith href "javascript:" ||
          strStartsWith href "mailto:" then none
      else if strIncludes href "login" || strIncludes href "signup" ||
          strIncludes href "contact" then none
      else
        let fullUrl := if strStartsWith href "http" then href else resolve href
        if strStartsWith fullUrl domain then some fullUrl else none)) []

/-! ## Theorems -/

/-- Counting with a fold equals the length of the filtered list. -/
theorem foldl_count_eq (p : α → Bool) (l : List α) (n : Nat) :
    l.foldl (fun c k => c + if p k then 1 else 0) n = n + (l.filter p).length := by
  induction l generalizing n with
  | nil => simp
  | cons a t ih =>
    cases h : p a
    · simp [List.filter_cons, h, ih]
    · simp [List.filter_cons, h, ih]
      omega

/-- C5: `isApiDocumentation(text)` returns true if and only if at least
3 distinct terms of its fixed API vocabulary are present in `text`
under case-insensitive word-boundary matching; fewer than 3 distinct
matched terms yield false, exactly 3 yield true (boundary at exactly 3). -/
theorem isApiDocumentation_iff_three_terms (text : String) :
    isApiDocumentation text = true ↔
      3 ≤ (apiKeywords.filter (fun k => hasMatch text.data (wordPat k))).length := by
  unfold isApiDocumentation
  rw [foldl_count_eq]
  simp

/-- C10: the `util/ai.ts` linker returns its input collection itself —
including any invalid Actions — whenever the collection has at most one
Action or no Action passes template and required-field validation. -/
theorem aiTsLink_returns_input_on_degenerate_input (m : Matcher)
    (actions : List ProcessedApiData)
    (h : actions.length ≤ 1 ∨ validateAndCleanActions actions = []) :
    AiTs.linkActionPrerequisites m actions = actions := by
  unfold AiTs.linkActionPrerequisites
  rcases h with h | h
  · simp [h]
  · by_cases h2 : actions.length ≤ 1 <;> simp [h, h2]

/-- Two invalid demo actions (missing `id` / template placeholder). -/
def demoBadA : ProcessedApiData :=
  { id := "", step_name := "Create User", action := "create_user",
    inputs := [], prerequisites := [("k", .str "something required here")],
    api_config := { url := "http://x.test/u", method := "POST" },
    response_schema := [] }

/-- Second invalid demo action (placeholder URL). -/
def demoBadB : ProcessedApiData :=
  { id := "b", step_name := "Verify Email", action := "verify_email",
    inputs := [], prerequisites := [],
    api_config := { url := "REPLACE WITH ACTUAL API URL", method := "GET" },
    response_schema := [] }

/-- Witness for C10: a concrete two-action collection in which no
action passes validation is returned unchanged. -/
theorem aiTsLink_returns_input_on_degenerate_input_witness :
    validateAndCleanActions [demoBadA, demoBadB] = [] ∧
      AiTs.linkActionPrerequisites matcherAi [demoBadA, demoBadB] = [demoBadA, demoBadB] :=
  ⟨by decide, aiTsLink_returns_input_on_degenerate_input matcherAi [demoBadA, demoBadB]
    (Or.inr (by decide))⟩

/-- C6: when the fetched page text fails the `isApiDocumentation` gate,
`processApiEndpoint` returns a skipped-status result for that URL, and
the outcome is the same whatever the model oracle would answer (no
model call can influence it). -/
theorem processApiEndpoint_skips_without_model_call (parseFn : ParseFn) (env : Env)
    (url : String) (sr : ScrapeResult)
    (hscrape : env.scrape url = .ok sr)
    (hdoc : isApiDocumentation sr.text = false) :
    processApiEndpoint parseFn env url = .skipped url "Not API documentation" ∧
      ∀ send2 : String → Bool → Except String String,
        processApiEndpoint parseFn { env with send := send2 } url =
          .skipped url "Not API documentation" := by
  constructor
  · unfold processApiEndpoint
    rw [hscrape]
    simp [hdoc]
  · intro send2
    unfold processApiEndpoint
    simp only [hscrape]
    simp [hdoc]

/-- A demo environment whose only page is not API documentation. -/
def demoEnvSkip : Env :=
  { scrape := fun _ => .ok { text := "hello world", htmlMulti := false },
    send := fun _ _ => .ok "irrelevant" }

/-- A demo parser collaborator that always fails. -/
def demoParseFn : ParseFn := fun _ => .error "unused"

/-- Witness for C6 at a concrete environment and URL. -/
theorem processApiEndpoint_skips_without_model_call_witness :
    processApiEndpoint demoParseFn demoEnvSkip "http://x.test/p" =
        .skipped "http://x.test/p" "Not API documentation" ∧
      ∀ send2, processApiEndpoint demoParseFn { demoEnvSkip with send := send2 } "http://x.test/p" =
        .skipped "http://x.test/p" "Not API documentation" :=
  processApiEndpoint_skips_without_model_call demoParseFn demoEnvSkip "http://x.test/p"
    { text := "hello world", htmlMulti := false } rfl (by decide)

/-- With fuel at least the list length, the batching loop is exactly
`map` in submission order. -/
theorem chunkedMapF_eq_map (f : String → ApiResult) (fuel : Nat) (urls : List String)
    (h : urls.length ≤ fuel) : chunkedMapF f fuel urls = urls.map f := by
  induction fuel generalizing urls with
  | zero =>
    cases urls with
    | nil => rfl
    | cons u t => simp at h
  | succ n ih =>
    cases urls with
    | nil => rfl
    | cons u t =>
      show (((u :: t).take 5).map f ++ chunkedMapF f n ((u :: t).drop 5)) = _
      rw [ih ((u :: t).drop 5) (by simp at h ⊢; omega)]
      rw [← List.map_append, List.take_append_drop]

/-- C3: `processApiEndpoints` returns exactly one `ApiResult` per input
URL, in submission order — it equals the per-URL function mapped over
the URL list — and a fetch, model, or parse failure while processing
one URL is caught inside `processApiEndpoint` and converted into an
error-status result for that URL (leaving every other URL's result the
independent per-URL value, as the map form shows). -/
theorem processApiEndpoints_order_and_isolation (parseFn : ParseFn) (env : Env)
    (urls : List String) :
    processApiEndpoints parseFn env urls = urls.map (processApiEndpoint parseFn env) ∧
      (∀ url e, env.scrape url = .error e →
        processApiEndpoint parseFn env url = .error url e) ∧
      (∀ url sr msg, env.scrape url = .ok sr → isApiDocumentation sr.text = true →
        env.send sr.text (detectMultipleApiEndpoints sr.text || sr.htmlMulti) = .error msg →
        processApiEndpoint parseFn env url = .error url msg) ∧
      (∀ url sr resp msg, env.scrape url = .ok sr → isApiDocumentation sr.text = true →
        env.send sr.text (detectMultipleApiEndpoints sr.text || sr.htmlMulti) = .ok resp →
        parseFn resp = .error msg →
        processApiEndpoint parseFn env url = .error url msg) := by
  refine ⟨chunkedMapF_eq_map _ _ _ (Nat.le_refl _), ?_, ?_, ?_⟩
  · intro url e h
    unfold processApiEndpoint
    rw [h]
  · intro url sr msg h1 h2 h3
    unfold processApiEndpoint
    rw [h1]
    simp [h2, h3]
  · intro url sr resp msg h1 h2 h3 h4
    unfold processApiEndpoint
    rw [h1]
    simp [h2, h3, h4]

/-- A demo environment for C3: one URL fails at fetch, one is API
documentation whose model call fails, one is not API documentation. -/
def demoEnvBatch : Env :=
  { scrape := fun url =>
      if url = "http://x.test/bad" then .error "FetchError: timeout"
      else if url = "http://x.test/doc" then
        .ok { text := "The api endpoint takes a request", htmlMulti := false }
      else .ok { text := "hello world", htmlMulti := false },
    send := fun _ _ => .error "ModelError: quota" }

/-- Witness for C3: the three-URL batch maps to one result per URL in
order, the fetch failure and the model failure becoming error-status
results for exactly their own URLs. -/
theorem processApiEndpoints_order_and_isolation_witness :
    processApiEndpoints demoParseFn demoEnvBatch
        ["http://x.test/bad", "http://x.test/doc", "http://x.test/other"] =
      [.error "http://x.test/bad" "FetchError: timeout",
       .error "http://x.test/doc" "ModelError: quota",
       .skipped "http://x.test/other" "Not API documentation"] := by
  have h := (processApiEndpoints_order_and_isolation demoParseFn demoEnvBatch
    ["http://x.test/bad", "http://x.test/doc", "http://x.test/other"]).1
  rw [h]
  decide

/-- Every element produced by the JS-`Set` deduplication was in the
input list. -/
theorem mem_dedupAux {u : String} : ∀ {l seen : List String}, u ∈ dedupAux l seen → u ∈ l := by
  intro l
  induction l with
  | nil => intro seen h; simp [dedupAux] at h
  | cons v t ih =>
    intro seen h
    unfold dedupAux at h
    by_cases hc : seen.contains v
    · simp only [hc, if_pos] at h
      exact List.mem_cons_of_mem v (ih h)
    · simp only [hc] at h
      rcases List.mem_cons.mp h with h | h
      · exact h ▸ List.mem_cons_self v t
      · exact List.mem_cons_of_mem v (ih h)

/-- The anchor list of the C8 counterexample: a single absolute link on
a host that merely extends the base host as a string. -/
def evilAnchors : List (Option String) := [some "https://a.com.evil.example/x"]

/-- C8 counterexample: for base URL `https://a.com`,
`extractSubsectionUrls` returns `https://a.com.evil.example/x`, whose
origin (scheme and host) differs from the base URL's origin — the
same-origin restriction claimed by the spec does not hold, because the
code only checks a string prefix. -/
theorem extractSubsectionUrls_not_same_origin :
    "https://a.com.evil.example/x" ∈ extractSubsectionUrls "https:" "a.com" id evilAnchors ∧
      specOrigin "https://a.com.evil.example/x" ≠ specOrigin "https://a.com" := by
  constructor
  · decide
  · decide

/-- C8 (amended): every URL returned by `extractSubsectionUrls` has the
string `protocol + "//" + host` of the base URL as a prefix (a weaker
property than same-origin), and every returned URL comes from some
anchor href that does not contain the substrings `login`, `signup` or
`contact` (and is not a fragment/javascript/mailto link), resolved to
`href` itself when absolute and `resolve href` otherwise. -/
theorem extractSubsectionUrls_prefix_and_exclusions (protocol host : String)
    (resolve : String → String) (anchors : List (Option String)) (u : String)
    (hu : u ∈ extractSubsectionUrls protocol host resolve anchors) :
    strStartsWith u (protocol ++ "//" ++ host) = true ∧
      ∃ href, some href ∈ anchors ∧
        strStartsWith href "#" = false ∧ strStartsWith href "javascript:" = false ∧
        strStartsWith href "mailto:" = false ∧
        strIncludes href "login" = false ∧ strIncludes href "signup" = false ∧
        strIncludes href "contact" = false ∧
        u = (if strStartsWith href "http" then href else resolve href) := by
  unfold extractSubsectionUrls at hu
  have hmem := mem_dedupAux hu
  rcases List.mem_filterMap.mp hmem with ⟨href?, hin, heq⟩
  cases href? with
  | none => simp at heq
  | some href =>
    by_cases h1 : strStartsWith href "#" || strStartsWith href "javascript:" ||
        strStartsWith href "mailto:"
    · simp [h1] at heq
    · by_cases h2 : strIncludes href "login" || strIncludes href "signup" ||
          strIncludes href "contact"
      · simp [h1, h2] at heq
      · simp only [h1, h2, Bool.false_eq_true, if_false] at heq
        by_cases h3 : strStartsWith
            (if strStartsWith href "http" then href else resolve href)
            (protocol ++ "//" ++ host)
        · simp only [h3, if_pos, Option.some.injEq] at heq
          subst heq
          simp only [Bool.or_eq_true, not_or, Bool.not_eq_true] at h1 h2
          exact ⟨h3, href, hin, h1.1.1, h1.1.2, h1.2, h2.1.1, h2.1.2, h2.2, rfl⟩
        · simp [h3] at heq

/-- Witness for the amended C8 at the concrete counterexample data. -/
theorem extractSubsectionUrls_prefix_and_exclusions_witness :
    strStartsWith "https://a.com.evil.example/x" ("https:" ++ "//" ++ "a.com") = true :=
  (extractSubsectionUrls_prefix_and_exclusions "https:" "a.com" id evilAnchors
    "https://a.com.evil.example/x" (by decide)).1

/-- A deterministic stand-in for the `uuidv4` id generator: injective
and recognizable by its leading character. -/
def demoGen : Nat → String := fun n => String.mk ('g' :: List.replicate n 'x')

/-- An otherwise valid, non-template action whose `id` is missing
(JS-falsy, modelled by the empty string). -/
def demoNoId : ProcessedApiData :=
  { id := "", step_name := "Create User", action := "create_user",
    inputs := [], prerequisites := [],
    api_config := { url := "http://x.test/u", method := "POST" },
    response_schema := [] }

/-- A valid action with an id. -/
def demoWithId : ProcessedApiData :=
  { id := "action_1", step_name := "Verify Email", action := "verify_email",
    inputs := [], prerequisites := [],
    api_config := { url := "http://x.test/v", method := "GET" },
    response_schema := [] }

/-- C2 counterexample: an array-mode response with 2 otherwise valid
Actions, one of which is missing its id, yields only 1 Action — the
missing-id Action is discarded by `validateAndCleanActions` before
identity reconciliation ever runs, so the parser does not return
exactly N Actions. -/
theorem parseAiResponseArray_drops_missing_id :
    (parseAiResponseArray demoGen [demoNoId, demoWithId]).toOption = some [demoWithId] ∧
      [demoNoId, demoWithId].length = 2 ∧ [demoWithId].length ≠ 2 := by
  refine ⟨by decide, rfl, by decide⟩

/-- The reconciliation loop preserves the number of actions. -/
theorem assignUniqueIdsAux_length (gen : Nat → String) :
    ∀ (l : List ProcessedApiData) (seen : List String) (ctr : Nat),
      (assignUniqueIdsAux gen l seen ctr).length = l.length := by
  intro l
  induction l with
  | nil => intro seen ctr; rfl
  | cons a t ih =>
    intro seen ctr
    unfold assignUniqueIdsAux
    split
    · simp [ih]
    · split <;> simp [ih]

/-- The reconciliation loop yields non-empty, pairwise-distinct ids
that also avoid the `seen` set, provided the generator is injective,
never empty, and fresh with respect to the incoming ids and the seen
set (from the counter on). -/
theorem assignUniqueIdsAux_ids (gen : Nat → String)
    (hinj : ∀ n m, gen n = gen m → n = m) (hne : ∀ n, gen n ≠ "") :
    ∀ (l : List ProcessedApiData) (seen : List String) (ctr : Nat),
      (∀ a ∈ l, a.id ≠ "") →
      (∀ n a, a ∈ l → ctr ≤ n → gen n ≠ a.id) →
      (∀ n, ctr ≤ n → gen n ∉ seen) →
      (∀ a ∈ assignUniqueIdsAux gen l seen ctr, a.id ≠ "") ∧
        ((assignUniqueIdsAux gen l seen ctr).map (fun a => a.id)).Nodup ∧
        (∀ a ∈ assignUniqueIdsAux gen l seen ctr, a.id ∉ seen) := by
  intro l
  induction l with
  | nil => intro seen ctr _ _ _; exact ⟨by simp [assignUniqueIdsAux], by simp [assignUniqueIdsAux], by simp [assignUniqueIdsAux]⟩
  | cons a t ih =>
    intro seen ctr hne1 hfresh hseen
    have hid : a.id ≠ "" := hne1 a (List.mem_cons_self a t)
    unfold assignUniqueIdsAux
    rw [if_neg hid]
    by_cases hdup : seen.contains a.id = true
    · -- duplicate id: replaced by gen ctr
      rw [if_pos hdup]
      have hrec := ih (gen ctr :: seen) (ctr + 1)
        (fun b hb => hne1 b (List.mem_cons_of_mem a hb))
        (fun n b hb hn => hfresh n b (List.mem_cons_of_mem a hb) (Nat.le_of_succ_le hn))
        (fun n hn => by
          intro hmem
          rcases List.mem_cons.mp hmem with h | h
          · exact absurd (hinj n ctr h) (by omega)
          · exact hseen n (by omega) h)
      refine ⟨?_, ?_, ?_⟩
      · intro b hb
        rcases List.mem_cons.mp hb with h | h
        · rw [h]; exact hne ctr
        · exact hrec.1 b h
      · simp only [List.map_cons, List.nodup_cons]
        refine ⟨?_, hrec.2.1⟩
        intro hmem
        rcases List.mem_map.mp hmem with ⟨b, hb, hbid⟩
        exact hrec.2.2 b hb (by rw [hbid]; exact List.mem_cons_self _ _)
      · intro b hb
        rcases List.mem_cons.mp hb with h | h
        · rw [h]
          exact hseen ctr (Nat.le_refl _)
        · intro hmem
          exact hrec.2.2 b h (List.mem_cons_of_mem _ hmem)
    · -- fresh id: kept
      rw [if_neg hdup]
      have hrec := ih (a.id :: seen) ctr
        (fun b hb => hne1 b (List.mem_cons_of_mem a hb))
        (fun n b hb hn => hfresh n b (List.mem_cons_of_mem a hb) hn)
        (fun n hn => by
          intro hmem
          rcases List.mem_cons.mp hmem with h | h
          · exact hfresh n a (List.mem_cons_self a t) hn h
          · exact hseen n hn h)
      refine ⟨?_, ?_, ?_⟩
      · intro b hb
        rcases List.mem_cons.mp hb with h | h
        · rw [h]; exact hid
        · exact hrec.1 b h
      · simp only [List.map_cons, List.nodup_cons]
        refine ⟨?_, hrec.2.1⟩
        intro hmem
        rcases List.mem_map.mp hmem with ⟨b, hb, hbid⟩
        exact hrec.2.2 b hb (by rw [hbid]; exact List.mem_cons_self _ _)
      · intro b hb
        rcases List.mem_cons.mp hb with h | h
        · rw [h]
          intro hmem
          exact hdup (by simpa using hmem)
        · intro hmem
          exact hrec.2.2 b h (List.mem_cons_of_mem _ hmem)

/-- Every action surviving validation has a non-empty id. -/
theorem validated_id_ne (a : ProcessedApiData) (l : List ProcessedApiData)
    (h : a ∈ validateAndCleanActions l) : a.id ≠ "" := by
  unfold validateAndCleanActions at h
  have h2 := (List.mem_filter.mp h).2
  simp only [Bool.and_eq_true, Bool.not_eq_true', Bool.or_eq_false_iff,
    decide_eq_false_iff_not] at h2
  exact h2.2.1.1.1

/-- C2 (amended): for an array-mode response, actions missing an id are
discarded by validation (never reaching identity reconciliation); among
the K validated actions, ids duplicated within the batch are replaced
by freshly generated ids, and the parser output has exactly K Actions,
each with a distinct non-empty id (given a fresh, injective generator,
which uuidv4 provides up to collision). -/
theorem parseAiResponseArray_identity (gen : Nat → String)
    (parsedData out : List ProcessedApiData)
    (hinj : ∀ n m, gen n = gen m → n = m)
    (hne : ∀ n, gen n ≠ "")
    (hfresh : ∀ n a, a ∈ validateAndCleanActions parsedData → gen n ≠ a.id)
    (hok : parseAiResponseArray gen parsedData = .ok out) :
    out.length = (validateAndCleanActions parsedData).length ∧
      (∀ a ∈ out, a.id ≠ "") ∧ (out.map (fun a => a.id)).Nodup := by
  unfold parseAiResponseArray at hok
  by_cases hempty : (validateAndCleanActions parsedData).isEmpty
  · simp [hempty] at hok
  · simp only [hempty, Bool.false_eq_true, if_neg, Except.ok.injEq, not_false_iff] at hok
    subst hok
    have hids := assignUniqueIdsAux_ids gen hinj hne (validateAndCleanActions parsedData) [] 0
      (fun a ha => validated_id_ne a parsedData ha)
      (fun n a ha _ => hfresh n a ha)
      (fun n _ => List.not_mem_nil (gen n))
    exact ⟨assignUniqueIdsAux_length gen _ [] 0, hids.1, hids.2.1⟩

/-- `demoGen` never collides with a string that does not start with `g`. -/
theorem demoGen_head (n : Nat) (s : String) (h : demoGen n = s) :
    s.data.head? = some 'g' := by
  rw [← h]
  rfl

/-- Witness for the amended C2: two valid actions sharing the id
`action_1`; the parser keeps both, giving the second a fresh id, and
the output ids are distinct and non-empty. -/
theorem parseAiResponseArray_identity_witness :
    (parseAiResponseArray demoGen [demoWithId, demoWithId]).isOk = true ∧
      ∀ out, parseAiResponseArray demoGen [demoWithId, demoWithId] = .ok out →
        out.length = 2 ∧ (∀ a ∈ out, a.id ≠ "") ∧ (out.map (fun a => a.id)).Nodup := by
  constructor
  · decide
  · intro out hok
    have h := parseAiResponseArray_identity demoGen [demoWithId, demoWithId] out
      (fun n m hg => by
        have : ('g' :: List.replicate n 'x') = ('g' :: List.replicate m 'x') := by
          have := congrArg String.data hg
          simpa [demoGen] using this
        have hrep := List.cons.inj this
        have := congrArg List.length hrep.2
        simpa using this)
      (fun n hg => by
        have := demoGen_head n "" hg
        simp at this)
      (fun n a ha hg => by
        have hhead := demoGen_head n a.id hg
        have : a ∈ validateAndCleanActions [demoWithId, demoWithId] := ha
        have hval : validateAndCleanActions [demoWithId, demoWithId] = [demoWithId, demoWithId] := by decide
        rw [hval] at this
        rcases List.mem_cons.mp this with h | h
        · rw [h] at hhead; simp [demoWithId] at hhead
        · simp only [List.mem_cons, List.not_mem_nil, or_false] at h
          rw [h] at hhead; simp [demoWithId] at hhead)
      hok
    have hval : validateAndCleanActions [demoWithId, demoWithId] = [demoWithId, demoWithId] := by decide
    rw [hval] at h
    exact ⟨h.1, h.2.1, h.2.2⟩

/-- Relation between a prerequisite entry value before and after a
linking pass: unchanged, or a free-text string rewritten into a
reference that preserves the string verbatim as its description (and,
when the short-string skip `sk` is active, only for strings of length
at least 10).  `P` carries extra information about the new reference. -/
def EntryRel (sk : Bool) (P : String → PrerequisiteReference → Prop)
    (v v' : PrereqValue) : Prop :=
  v' = v ∨ ∃ s r, v = .str s ∧ v' = .ref r ∧ r.description = s ∧
    (sk = true → 10 ≤ s.length) ∧ P s r

/-- Relation between an action before and after a linking pass: all
fields other than `prerequisites` agree, the prerequisite keys and
their order agree, and each entry value satisfies `EntryRel`. -/
def ActRel (sk : Bool) (P : String → PrerequisiteReference → Prop)
    (a a' : ProcessedApiData) : Prop :=
  a'.id = a.id ∧ a'.step_name = a.step_name ∧ a'.action = a.action ∧
    a'.inputs = a.inputs ∧ a'.api_config = a.api_config ∧
    a'.response_schema = a.response_schema ∧
    a'.prerequisites.length = a.prerequisites.length ∧
    ∀ j k v, a.prerequisites.get? j = some (k, v) →
      ∃ v', a'.prerequisites.get? j = some (k, v') ∧ EntryRel sk P v v'

/-- Relation between an action collection before and after a linking
pass: same length and `ActRel` pointwise. -/
def CollRel (sk : Bool) (P : String → PrerequisiteReference → Prop)
    (s s' : List ProcessedApiData) : Prop :=
  s'.length = s.length ∧
    ∀ i a, s.get? i = some a → ∃ a', s'.get? i = some a' ∧ ActRel sk P a a'

/-- `EntryRel` is reflexive. -/
theorem entryRel_refl (sk : Bool) (P : String → PrerequisiteReference → Prop)
    (v : PrereqValue) : EntryRel sk P v v := Or.inl rfl

/-- `EntryRel` is transitive. -/
theorem entryRel_trans {sk : Bool} {P : String → PrerequisiteReference → Prop}
    {v v' v'' : PrereqValue} (h1 : EntryRel sk P v v') (h2 : EntryRel sk P v' v'') :
    EntryRel sk P v v'' := by
  rcases h1 with h1 | ⟨s, r, hv, hv', hd, hsk, hP⟩
  · subst h1; exact h2
  · rcases h2 with h2 | ⟨s2, r2, hv2, _, _, _, _⟩
    · subst h2; exact Or.inr ⟨s, r, hv, hv', hd, hsk, hP⟩
    · rw [hv'] at hv2; cases hv2

/-- `ActRel` is reflexive. -/
theorem actRel_refl (sk : Bool) (P : String → PrerequisiteReference → Prop)
    (a : ProcessedApiData) : ActRel sk P a a :=
  ⟨rfl, rfl, rfl, rfl, rfl, rfl, rfl,
    fun _ _ v h => ⟨v, h, entryRel_refl sk P v⟩⟩

/-- `ActRel` is transitive. -/
theorem actRel_trans {sk : Bool} {P : String → PrerequisiteReference → Prop}
    {a a' a'' : ProcessedApiData} (h1 : ActRel sk P a a') (h2 : ActRel sk P a' a'') :
    ActRel sk P a a'' := by
  obtain ⟨e1, e2, e3, e4, e5, e6, e7, e8⟩ := h1
  obtain ⟨f1, f2, f3, f4, f5, f6, f7, f8⟩ := h2
  refine ⟨f1.trans e1, f2.trans e2, f3.trans e3, f4.trans e4, f5.trans e5,
    f6.trans e6, f7.trans e7, ?_⟩
  intro j k v hj
  obtain ⟨v', hj', hrel⟩ := e8 j k v hj
  obtain ⟨v'', hj'', hrel'⟩ := f8 j k v' hj'
  exact ⟨v'', hj'', entryRel_trans hrel hrel'⟩

/-- `CollRel` is reflexive. -/
theorem collRel_refl (sk : Bool) (P : String → PrerequisiteReference → Prop)
    (s : List ProcessedApiData) : CollRel sk P s s :=
  ⟨rfl, fun _ a h => ⟨a, h, actRel_refl sk P a⟩⟩

/-- `CollRel` is transitive. -/
theorem collRel_trans {sk : Bool} {P : String → PrerequisiteReference → Prop}
    {s s' s'' : List ProcessedApiData} (h1 : CollRel sk P s s') (h2 : CollRel sk P s' s'') :
    CollRel sk P s s'' := by
  refine ⟨h2.1.trans h1.1, ?_⟩
  intro i a hi
  obtain ⟨a', hi', hrel⟩ := h1.2 i a hi
  obtain ⟨a'', hi'', hrel'⟩ := h2.2 i a' hi'
  exact ⟨a'', hi'', actRel_trans hrel hrel'⟩

/-- `updAt` preserves the length. -/
theorem updAt_length (l : List α) (i : Nat) (f : α → α) :
    (updAt l i f).length = l.length := by
  induction l generalizing i with
  | nil => rfl
  | cons a t ih =>
    cases i with
    | zero => rfl
    | succ n => simpa [updAt] using ih n

/-- `updAt` leaves other positions untouched. -/
theorem updAt_get_ne (l : List α) (i : Nat) (f : α → α) (i' : Nat) (h : i' ≠ i) :
    (updAt l i f).get? i' = l.get? i' := by
  induction l generalizing i i' with
  | nil => rfl
  | cons a t ih =>
    cases i with
    | zero =>
      cases i' with
      | zero => exact absurd rfl h
      | succ m => rfl
    | succ n =>
      cases i' with
      | zero => rfl
      | succ m => simpa [updAt] using ih n m (fun hm => h (by rw [hm]))

/-- `updAt` applies `f` at position `i`. -/
theorem updAt_get_self (l : List α) (i : Nat) (f : α → α) (a : α)
    (h : l.get? i = some a) : (updAt l i f).get? i = some (f a) := by
  induction l generalizing i with
  | nil => cases h
  | cons b t ih =>
    cases i with
    | zero => cases h; rfl
    | succ n => simpa [updAt] using ih n (by simpa using h)

/-- `setPrereq` keeps the keys (with their order). -/
theorem setPrereq_keys (a : ProcessedApiData) (k : String) (v : PrereqValue) :
    (setPrereq a k v).prerequisites.map Prod.fst = a.prerequisites.map Prod.fst := by
  unfold setPrereq
  simp only [List.map_map]
  apply List.map_congr_left
  intro kv _
  by_cases h : kv.1 = k <;> simp [h]

/-- With pairwise-distinct keys, an entry of the list is determined by
its key. -/
theorem entry_unique_of_nodup_keys {l : List (String × PrereqValue)}
    (hnodup : (l.map Prod.fst).Nodup) {k : String} {v v' : PrereqValue} {j : Nat}
    (hmem : (k, v) ∈ l) (hj : l.get? j = some (k, v')) : v' = v := by
  induction l generalizing j with
  | nil => cases hmem
  | cons kv t ih =>
    simp only [List.map_cons, List.nodup_cons] at hnodup
    cases j with
    | zero =>
      simp only [List.get?] at hj
      injection hj with hj
      rcases List.mem_cons.mp hmem with h | h
      · rw [hj] at h
        injection h with h1 h2
        exact h2.symm
      · exfalso
        apply hnodup.1
        rw [hj]
        have hx := List.mem_map_of_mem Prod.fst h
        simpa using hx
    | succ n =>
      simp only [List.get?] at hj
      rcases List.mem_cons.mp hmem with h | h
      · exfalso
        apply hnodup.1
        have hmem2 : (k, v') ∈ t := List.get?_mem hj
        rw [← h]
        have hx := List.mem_map_of_mem Prod.fst hmem2
        simpa using hx
      · exact ih hnodup.2 h hj

/-- An entry with a different key survives `setPrereq` unchanged. -/
theorem mem_setPrereq_of_ne (a : ProcessedApiData) (k : String) (v : PrereqValue)
    (kv : String × PrereqValue) (hmem : kv ∈ a.prerequisites) (hne : kv.1 ≠ k) :
    kv ∈ (setPrereq a k v).prerequisites := by
  unfold setPrereq
  simp only [List.mem_map]
  exact ⟨kv, hmem, by simp [hne]⟩

/-- Related actions have identical prerequisite key lists. -/
theorem ActRel.keys_eq {sk : Bool} {P : String → PrerequisiteReference → Prop}
    {a a' : ProcessedApiData} (h : ActRel sk P a a') :
    a'.prerequisites.map Prod.fst = a.prerequisites.map Prod.fst := by
  apply List.ext_get?
  intro j
  rw [List.get?_map, List.get?_map]
  cases hj : a.prerequisites.get? j with
  | none =>
    have hlen := List.get?_eq_none.mp hj
    have h2 : a'.prerequisites.get? j = none :=
      List.get?_eq_none.mpr (by rw [h.2.2.2.2.2.2.1]; exact hlen)
    rw [h2]
  | some kv =>
    obtain ⟨v', hj', _⟩ := h.2.2.2.2.2.2.2 j kv.1 kv.2 (by rw [← hj])
    rw [hj']
    rfl

/-- One accepted rewrite relates a state to its update. -/
theorem collRel_update_step (sk : Bool) (P : String → PrerequisiteReference → Prop)
    (st : List ProcessedApiData) (i : Nat) (a : ProcessedApiData)
    (k s : String) (newRef : PrerequisiteReference)
    (hget : st.get? i = some a)
    (hmem : (k, .str s) ∈ a.prerequisites)
    (hnodup : (a.prerequisites.map Prod.fst).Nodup)
    (hdesc : newRef.description = s)
    (hsk : sk = true → 10 ≤ s.length)
    (hP : P s newRef) :
    CollRel sk P st (updAt st i (fun act => setPrereq act k (.ref newRef))) := by
  refine ⟨updAt_length st i _, ?_⟩
  intro i' a' hget'
  by_cases hii : i' = i
  · subst hii
    have ha : a' = a := by rw [hget] at hget'; injection hget' with h; exact h.symm
    subst ha
    refine ⟨setPrereq a' k (.ref newRef), updAt_get_self st i' _ a' hget', ?_⟩
    refine ⟨rfl, rfl, rfl, rfl, rfl, rfl, by simp [setPrereq], ?_⟩
    intro j k' v hj
    have hj' : (setPrereq a' k (.ref newRef)).prerequisites.get? j =
        some (if k' = k then (k', PrereqValue.ref newRef) else (k', v)) := by
      unfold setPrereq
      rw [List.get?_map, hj]
      by_cases hkk : k' = k <;> simp [hkk]
    by_cases hkk : k' = k
    · subst hkk
      have hv : v = .str s := entry_unique_of_nodup_keys hnodup hmem hj
      subst hv
      rw [if_pos rfl] at hj'
      exact ⟨.ref newRef, hj', Or.inr ⟨s, newRef, rfl, rfl, hdesc, hsk, hP⟩⟩
    · rw [if_neg hkk] at hj'
      exact ⟨v, hj', entryRel_refl sk P v⟩
  · refine ⟨a', ?_, actRel_refl sk P a'⟩
    rw [updAt_get_ne st i _ i' hii]
    exact hget'

/-- The per-action entry loop keeps the collection related to the
original input `s0` (given a matcher premise stated against all states
related to `s0`). -/
theorem linkEntries_rel (sk : Bool) (m : Matcher)
    (P : String → PrerequisiteReference → Prop) (s0 : List ProcessedApiData)
    (hm : ∀ st, CollRel sk P s0 st → ∀ txt aid r, m txt st aid = some r →
      P txt ⟨r.id, txt, r.step_name⟩) :
    ∀ (entries : List (String × PrereqValue)) (st : List ProcessedApiData)
      (i : Nat) (aid : String),
      CollRel sk P s0 st →
      (entries.map Prod.fst).Nodup →
      (∃ acur, st.get? i = some acur ∧ (acur.prerequisites.map Prod.fst).Nodup ∧
        ∀ kv ∈ entries, kv ∈ acur.prerequisites) →
      CollRel sk P s0 (entries.foldl (linkEntryStep sk m i aid) st) := by
  intro entries
  induction entries with
  | nil => intro st i aid hrel _ _; exact hrel
  | cons kv rest ih =>
    intro st i aid hrel hkeys hinv
    obtain ⟨acur, hget, hnodup, hsub⟩ := hinv
    simp only [List.map_cons, List.nodup_cons] at hkeys
    rw [List.foldl_cons]
    -- analyze one step
    rcases hv : kv.2 with s | r0
    · -- a free-text string entry
      by_cases hskip : sk = true ∧ s.length < 10
      · have hstep : linkEntryStep sk m i aid st kv = st := by
          simp only [linkEntryStep, hv]
          rw [if_pos hskip]
        rw [hstep]
        exact ih st i aid hrel hkeys.2 ⟨acur, hget, hnodup, fun kv' h => hsub kv' (List.mem_cons_of_mem kv h)⟩
      · cases hmres : m s st aid with
        | none =>
          have hstep : linkEntryStep sk m i aid st kv = st := by
            simp only [linkEntryStep, hv]
            rw [if_neg hskip, hmres]
          rw [hstep]
          exact ih st i aid hrel hkeys.2 ⟨acur, hget, hnodup, fun kv' h => hsub kv' (List.mem_cons_of_mem kv h)⟩
        | some r =>
          have hstep : linkEntryStep sk m i aid st kv =
              updAt st i (fun act => setPrereq act kv.1 (.ref ⟨r.id, s, r.step_name⟩)) := by
            simp only [linkEntryStep, hv]
            rw [if_neg hskip, hmres]
          rw [hstep]
          have hmem : (kv.1, PrereqValue.str s) ∈ acur.prerequisites := by
            have := hsub kv (List.mem_cons_self kv rest)
            rwa [show kv = (kv.1, PrereqValue.str s) from Prod.ext rfl hv] at this
          have hsk2 : sk = true → 10 ≤ s.length := by
            intro h
            by_contra hlt
            exact hskip ⟨h, by omega⟩
          have hstepRel := collRel_update_step sk P st i acur kv.1 s
            ⟨r.id, s, r.step_name⟩ hget hmem hnodup rfl hsk2
            (hm st hrel s aid r hmres)
          have hrel2 := collRel_trans hrel hstepRel
          apply ih _ i aid hrel2 hkeys.2
          refine ⟨setPrereq acur kv.1 (.ref ⟨r.id, s, r.step_name⟩),
            updAt_get_self st i _ acur hget, ?_, ?_⟩
          · rw [setPrereq_keys]; exact hnodup
          · intro kv' h
            exact mem_setPrereq_of_ne acur kv.1 _ kv'
              (hsub kv' (List.mem_cons_of_mem kv h))
              (fun hk => hkeys.1 (hk ▸ List.mem_map_of_mem Prod.fst h))
    · -- an already-resolved reference: skipped
      have hstep : linkEntryStep sk m i aid st kv = st := by
        simp only [linkEntryStep, hv]
      rw [hstep]
      exact ih st i aid hrel hkeys.2 ⟨acur, hget, hnodup, fun kv' h => hsub kv' (List.mem_cons_of_mem kv h)⟩

/-- From a related state, recover the original action at a position. -/
theorem collRel_backward {sk : Bool} {P : String → PrerequisiteReference → Prop}
    {s0 st : List ProcessedApiData} (h : CollRel sk P s0 st) {i : Nat}
    {a : ProcessedApiData} (hget : st.get? i = some a) :
    ∃ a0, s0.get? i = some a0 ∧ ActRel sk P a0 a := by
  cases h0 : s0.get? i with
  | some a0 =>
    obtain ⟨a', hget', hrel⟩ := h.2 i a0 h0
    rw [hget] at hget'
    injection hget' with he
    subst he
    exact ⟨a0, rfl, hrel⟩
  | none =>
    exfalso
    have h1 : s0.length ≤ i := List.get?_eq_none.mp h0
    have h2 : st.get? i = none := List.get?_eq_none.mpr (by rw [h.1]; exact h1)
    rw [hget] at h2
    cases h2

/-- Folding the per-action loop over any index list keeps the
collection related to the original input. -/
theorem linkIdx_rel (sk : Bool) (m : Matcher)
    (P : String → PrerequisiteReference → Prop) (s0 : List ProcessedApiData)
    (hm : ∀ st, CollRel sk P s0 st → ∀ txt aid r, m txt st aid = some r →
      P txt ⟨r.id, txt, r.step_name⟩)
    (hkeys : ∀ a ∈ s0, (a.prerequisites.map Prod.fst).Nodup) :
    ∀ (idxs : List Nat) (st : List ProcessedApiData), CollRel sk P s0 st →
      CollRel sk P s0 (idxs.foldl (linkOneAction sk m) st) := by
  intro idxs
  induction idxs with
  | nil => intro st h; exact h
  | cons i rest ih =>
    intro st hrel
    rw [List.foldl_cons]
    apply ih
    unfold linkOneAction
    cases hget : st.get? i with
    | none => exact hrel
    | some a =>
      obtain ⟨a0, h0, hrelA⟩ := collRel_backward hrel hget
      have hkeysA : (a.prerequisites.map Prod.fst).Nodup := by
        rw [hrelA.keys_eq]
        exact hkeys a0 (List.get?_mem h0)
      exact linkEntries_rel sk m P s0 hm a.prerequisites st i a.id hrel hkeysA
        ⟨a, hget, hkeysA, fun _ h => h⟩

/-- The frame property of one linking pass: the output collection is
pointwise related to the input — all fields other than `prerequisites`
agree, keys and their order agree, and every entry is unchanged or a
string resolved into a reference preserving the string as description
(respecting the short-string skip), with `P` holding of each new
reference. -/
theorem linkPass_frame (sk : Bool) (m : Matcher)
    (P : String → PrerequisiteReference → Prop) (s0 : List ProcessedApiData)
    (hkeys : ∀ a ∈ s0, (a.prerequisites.map Prod.fst).Nodup)
    (hm : ∀ st, CollRel sk P s0 st → ∀ txt aid r, m txt st aid = some r →
      P txt ⟨r.id, txt, r.step_name⟩) :
    CollRel sk P s0 (linkPass sk m s0) := by
  unfold linkPass
  exact linkIdx_rel sk m P s0 hm hkeys (List.range s0.length) s0 (collRel_refl sk P s0)

/-- The fold underlying `pickTop` only produces elements of the list or
the initial accumulator. -/
theorem pickTop_fold_mem :
    ∀ (l : List (ProcessedApiData × Int)) (acc : Option (ProcessedApiData × Int))
      (x : ProcessedApiData × Int),
      l.foldl pickStep acc = some x →
      x ∈ l ∨ acc = some x := by
  intro l
  induction l with
  | nil => intro acc x h; exact Or.inr h
  | cons y t ih =>
    intro acc x h
    rw [List.foldl_cons] at h
    rcases ih _ x h with hmem | hacc
    · exact Or.inl (List.mem_cons_of_mem y hmem)
    · cases acc with
      | none =>
        simp only [pickStep] at hacc
        injection hacc with he
        exact Or.inl (he ▸ List.mem_cons_self y t)
      | some b =>
        simp only [pickStep] at hacc
        by_cases hgt : y.2 > b.2
        · rw [if_pos hgt] at hacc
          injection hacc with he
          exact Or.inl (he ▸ List.mem_cons_self y t)
        · rw [if_neg hgt] at hacc
          exact Or.inr hacc

/-- `pickTop` returns an element of its input list. -/
theorem pickTop_mem (l : List (ProcessedApiData × Int)) (x : ProcessedApiData × Int)
    (h : pickTop l = some x) : x ∈ l := by
  rcases pickTop_fold_mem l none x h with hmem | hacc
  · exact hmem
  · cases hacc

/-- The part_000 no-credential matcher only returns a member of its
candidate collection. -/
theorem matcherP0_mem (txt : String) (cands : List ProcessedApiData) (cur : String)
    (r : ProcessedApiData) (h : matcherP0 txt cands cur = some r) : r ∈ cands := by
  unfold matcherP0 at h
  by_cases he : (cands.filter (fun a => a.id ≠ cur)).isEmpty
  · rw [if_pos he] at h; cases h
  · rw [if_neg he] at h
    unfold findMostRelevantActionHeuristicP0 at h
    rw [if_neg he] at h
    cases hp : pickTop ((cands.filter (fun a => a.id ≠ cur)).map
        (fun a => (a, p0Score txt cur a))) with
    | none => rw [hp] at h; cases h
    | some asc =>
      obtain ⟨a, sc⟩ := asc
      rw [hp] at h
      simp only at h
      by_cases hsc : sc > 0
      · rw [if_pos hsc] at h
        injection h with he2
        have hmem := pickTop_mem _ _ hp
        rcases List.mem_map.mp hmem with ⟨b, hb, hbeq⟩
        have hba : b = a := congrArg Prod.fst hbeq
        rw [he2] at hba
        rw [← hba]
        exact List.mem_of_mem_filter hb
      · rw [if_neg hsc] at h
        cases h

/-- First demo action of the idempotence counterexample: its
prerequisite text shares tokens with the third action's step name. -/
def actA : ProcessedApiData :=
  { id := "a1", step_name := "Alpha Step", action := "do_alpha",
    inputs := [("foo", "f")],
    prerequisites := [("p", .str "alpha beta gamma delta omega")],
    api_config := { url := "http://e.test/a", method := "GET" },
    response_schema := [] }

/-- Second demo action: its own prerequisite resolves to the third
action in the first pass, enlarging its serialized form. -/
def actB : ProcessedApiData :=
  { id := "b1", step_name := "Bravo", action := "do_bravo",
    inputs := [("alpha", "x")],
    prerequisites := [("p", .str "quux zorp needed")],
    api_config := { url := "http://e.test/b", method := "POST" },
    response_schema := [] }

/-- Third demo action: target of the second action's prerequisite. -/
def actC : ProcessedApiData :=
  { id := "c1", step_name := "Delta Gamma", action := "do_label",
    inputs := [("quux", "q"), ("zorp", "z")],
    prerequisites := [],
    api_config := { url := "http://e.test/c", method := "GET" },
    response_schema := [] }

/-- The collection of the idempotence counterexample. -/
def coll : List ProcessedApiData := [actA, actB, actC]

set_option maxRecDepth 20000 in
/-- C1 counterexample: the `util/ai.ts` linker is not idempotent.  On
`coll`, the first pass leaves the first action's prerequisite as a
string (top heuristic score 3 < 5) but resolves the second action's
prerequisite to the third action; the added reference enlarges the
second action's serialized JSON, so a second pass scores the first
action's prerequisite at 7 ≥ 5 and resolves it — the output of running
the linker on its own output differs from that output. -/
theorem aiTsLink_not_idempotent :
    AiTs.linkActionPrerequisites matcherAi (AiTs.linkActionPrerequisites matcherAi coll) ≠
      AiTs.linkActionPrerequisites matcherAi coll := by decide

/-- C7: the part_000 linker's output is pointwise related to its input:
every output Action agrees with its input Action on `id`, `step_name`,
`action`, `inputs`, `api_config` and `response_schema` (the caller's
collection itself is untouched — value semantics of the deep copy);
prerequisite keys and order agree; and every rewritten entry is a
`PrerequisiteReference` carrying the chosen Action's id, the original
free-text requirement verbatim as its `description`, and the chosen
Action's `step_name` (the chosen Action being a member of the
collection, whose id and step name the pass preserves). -/
theorem linkP0_frame_and_rewrite_shape (actions : List ProcessedApiData)
    (hkeys : ∀ a ∈ actions, (a.prerequisites.map Prod.fst).Nodup) :
    CollRel false
      (fun _ r => ∃ j b, actions.get? j = some b ∧ r.id = b.id ∧ r.action_name = b.step_name)
      actions (linkActionPrerequisitesP0 matcherP0 actions) := by
  unfold linkActionPrerequisitesP0
  apply linkPass_frame _ _ _ _ hkeys
  intro st hrel txt aid r hm
  have hmem := matcherP0_mem txt st aid r hm
  rcases List.mem_iff_get?.mp hmem with ⟨j, hj⟩
  obtain ⟨b, hb, hrelA⟩ := collRel_backward hrel hj
  exact ⟨j, b, hb, hrelA.1, hrelA.2.1⟩

/-- Witness for C7 at the concrete three-action collection. -/
theorem linkP0_frame_and_rewrite_shape_witness :
    CollRel false
      (fun _ r => ∃ j b, coll.get? j = some b ∧ r.id = b.id ∧ r.action_name = b.step_name)
      coll (linkActionPrerequisitesP0 matcherP0 coll) :=
  linkP0_frame_and_rewrite_shape coll (by decide)

/-- An action whose prerequisite text is only 7 characters long. -/
def shortA : ProcessedApiData :=
  { id := "s1", step_name := "Start", action := "start_here",
    inputs := [], prerequisites := [("k", .str "userkey")],
    api_config := { url := "http://x.test/s", method := "GET" },
    response_schema := [] }

/-- A candidate action whose step name contains the 7-character
prerequisite text. -/
def shortB : ProcessedApiData :=
  { id := "s2", step_name := "Make Userkey", action := "make_userkey",
    inputs := [], prerequisites := [],
    api_config := { url := "http://x.test/m", method := "POST" },
    response_schema := [] }

set_option maxRecDepth 20000 in
/-- C9 counterexample: the part_000 linker applies no minimum-length
threshold — the 7-character prerequisite string `userkey` (shorter than
the claimed 10-character minimum) is matched by the heuristic and
rewritten into a reference, so the claim that such entries are skipped
by "the Prerequisite Linker" fails on the part_000 implementation. -/
theorem linkP0_resolves_short_prereq :
    ("userkey".length < 10 ∧
      linkActionPrerequisitesP0 matcherP0 [shortA, shortB] =
        [{ shortA with prerequisites :=
            [("k", .ref ⟨"s2", "userkey", "Make Userkey"⟩)] }, shortB]) := by
  constructor
  · decide
  · decide

/-- C9 (amended): in the `util/ai.ts` linker, a prerequisite entry
whose free-text string is shorter than 10 characters is skipped — it
survives linking as exactly the same unresolved string, whatever the
matcher would have answered; the part_000 linker applies no such
threshold. -/
theorem aiTsLink_skips_short_prereq_strings (m : Matcher)
    (actions : List ProcessedApiData)
    (hlen : 1 < actions.length)
    (hval : ¬ (validateAndCleanActions actions).isEmpty = true)
    (hkeys : ∀ a ∈ validateAndCleanActions actions, (a.prerequisites.map Prod.fst).Nodup)
    (i j : Nat) (a : ProcessedApiData) (k s : String)
    (ha : (validateAndCleanActions actions).get? i = some a)
    (hent : a.prerequisites.get? j = some (k, .str s))
    (hshort : s.length < 10) :
    ∃ a', (AiTs.linkActionPrerequisites m actions).get? i = some a' ∧
      a'.prerequisites.get? j = some (k, .str s) := by
  have hrel := linkPass_frame true m (fun _ _ => True) (validateAndCleanActions actions)
    hkeys (fun _ _ _ _ _ _ => trivial)
  unfold AiTs.linkActionPrerequisites
  rw [if_neg (by omega : ¬ actions.length ≤ 1), if_neg hval]
  obtain ⟨a', hget', hrelA⟩ := hrel.2 i a ha
  obtain ⟨v', hent', hE⟩ := hrelA.2.2.2.2.2.2.2 j k _ hent
  rcases hE with hE | ⟨s2, r2, hv, _, _, hsk, _⟩
  · exact ⟨a', hget', by rw [hent', hE]⟩
  · exfalso
    injection hv with hs2
    subst hs2
    have := hsk rfl
    omega

/-- Witness for the amended C9: the 7-character prerequisite of
`shortA` survives the `util/ai.ts` linker as the same string. -/
theorem aiTsLink_skips_short_prereq_strings_witness :
    ∃ a', (AiTs.linkActionPrerequisites matcherAi [shortA, shortB]).get? 0 = some a' ∧
      a'.prerequisites.get? 0 = some ("k", .str "userkey") :=
  aiTsLink_skips_short_prereq_strings matcherAi [shortA, shortB] (by decide) (by decide)
    (by decide) 0 0 shortA "k" "userkey" (by decide) (by decide) (by decide)

/-- An action with its prerequisites dropped: the part of an action the
part_000 heuristic can observe (its scoring reads `step_name`,
`action`, input keys, `api_config` and `id` only, never the
prerequisites). -/
def strip (a : ProcessedApiData) : ProcessedApiData := { a with prerequisites := [] }

/-- The part_000 score only depends on the heuristic-observable part of
a candidate. -/
theorem p0Score_strip_congr (txt cur : String) (a b : ProcessedApiData)
    (h : strip a = strip b) : p0Score txt cur a = p0Score txt cur b := by
  have ha : p0Score txt cur (strip a) = p0Score txt cur a := rfl
  have hb : p0Score txt cur (strip b) = p0Score txt cur b := rfl
  rw [← ha, ← hb, h]

/-- Filtering through a strip-observable predicate commutes with
strip-equality of lists. -/
theorem filter_map_strip (p : ProcessedApiData → Bool)
    (hp : ∀ a b, strip a = strip b → p a = p b) :
    ∀ (l1 l2 : List ProcessedApiData), l1.map strip = l2.map strip →
      (l1.filter p).map strip = (l2.filter p).map strip := by
  intro l1
  induction l1 with
  | nil =>
    intro l2 h
    cases l2 with
    | nil => rfl
    | cons b t2 => cases h
  | cons a t1 ih =>
    intro l2 h
    cases l2 with
    | nil => cases h
    | cons b t2 =>
      simp only [List.map_cons, List.cons.injEq] at h
      have hpab : p a = p b := hp a b h.1
      rw [List.filter_cons, List.filter_cons, ← hpab]
      by_cases hc : p a
      · rw [if_pos hc, if_pos hc]
        simp only [List.map_cons, List.cons.injEq]
        exact ⟨h.1, ih t2 h.2⟩
      · rw [if_neg hc, if_neg hc]
        exact ih t2 h.2

/-- The `pickTop` fold respects strip-equality of the scored candidate
lists (scores computed by a strip-observable function). -/
theorem pickTop_fold_strip (f : ProcessedApiData → Int)
    (hf : ∀ a b, strip a = strip b → f a = f b) :
    ∀ (l1 l2 : List ProcessedApiData),
      l1.map strip = l2.map strip →
      ∀ (acc1 acc2 : Option (ProcessedApiData × Int)),
        Option.map (fun x => (strip x.1, x.2)) acc1 =
          Option.map (fun x => (strip x.1, x.2)) acc2 →
        Option.map (fun x => (strip x.1, x.2))
            ((l1.map (fun a => (a, f a))).foldl pickStep acc1) =
          Option.map (fun x => (strip x.1, x.2))
            ((l2.map (fun a => (a, f a))).foldl pickStep acc2) := by
  intro l1
  induction l1 with
  | nil =>
    intro l2 h acc1 acc2 hacc
    cases l2 with
    | nil => exact hacc
    | cons b t2 => cases h
  | cons a t1 ih =>
    intro l2 h acc1 acc2 hacc
    cases l2 with
    | nil => cases h
    | cons b t2 =>
      simp only [List.map_cons, List.cons.injEq] at h
      rw [List.map_cons, List.map_cons, List.foldl_cons, List.foldl_cons]
      apply ih t2 h.2
      have hfab : f a = f b := hf a b h.1
      cases acc1 with
      | none =>
        cases acc2 with
        | none =>
          simp only [pickStep, Option.map_some', Option.some.injEq, Prod.mk.injEq]
          exact ⟨h.1, hfab⟩
        | some x2 => cases hacc
      | some x1 =>
        cases acc2 with
        | none => cases hacc
        | some x2 =>
          simp only [Option.map_some', Option.some.injEq, Prod.mk.injEq] at hacc
          simp only [pickStep]
          rw [hfab, hacc.2]
          by_cases hgt : f b > x2.2
          · rw [if_pos hgt, if_pos hgt]
            simp only [Option.map_some', Option.some.injEq, Prod.mk.injEq]
            exact ⟨h.1, trivial⟩
          · rw [if_neg hgt, if_neg hgt]
            simp only [Option.map_some', Option.some.injEq, Prod.mk.injEq]
            exact hacc

/-- `isEmpty` through length. -/
theorem isEmpty_eq_decide_length (x : List ProcessedApiData) :
    x.isEmpty = decide (x.length = 0) := by
  cases x <;> rfl

/-- The part_000 no-credential matcher only observes the
strip-projection of its candidates: on strip-equal candidate lists its
results are strip-equal (in particular, both succeed or both fail, and
any returned ids and step names agree). -/
theorem matcherP0_strip_congr (txt cur : String) :
    ∀ (l1 l2 : List ProcessedApiData), l1.map strip = l2.map strip →
      Option.map strip (matcherP0 txt l1 cur) = Option.map strip (matcherP0 txt l2 cur) := by
  intro l1 l2 h
  unfold matcherP0
  have hp : ∀ a b, strip a = strip b → (decide (a.id ≠ cur)) = (decide (b.id ≠ cur)) := by
    intro a b hab
    have h2 : (strip a).id = (strip b).id := congrArg ProcessedApiData.id hab
    have h3 : a.id = b.id := h2
    rw [h3]
  have hfil := filter_map_strip (fun a => decide (a.id ≠ cur)) hp l1 l2 h
  have hlen : (l1.filter (fun a => decide (a.id ≠ cur))).length =
      (l2.filter (fun a => decide (a.id ≠ cur))).length := by
    have := congrArg List.length hfil
    simpa using this
  have hempty : (l1.filter (fun a => decide (a.id ≠ cur))).isEmpty =
      (l2.filter (fun a => decide (a.id ≠ cur))).isEmpty := by
    rw [isEmpty_eq_decide_length, isEmpty_eq_decide_length, hlen]
  by_cases he : (l1.filter (fun a => decide (a.id ≠ cur))).isEmpty = true
  · rw [if_pos he, if_pos (by rw [← hempty]; exact he)]
  · rw [if_neg he, if_neg (by rw [← hempty]; exact he)]
    unfold findMostRelevantActionHeuristicP0
    rw [if_neg he, if_neg (by rw [← hempty]; exact he)]
    have hpick := pickTop_fold_strip (p0Score txt cur)
      (fun a b hab => p0Score_strip_congr txt cur a b hab)
      (l1.filter (fun a => decide (a.id ≠ cur)))
      (l2.filter (fun a => decide (a.id ≠ cur))) hfil none none rfl
    cases h1 : pickTop ((l1.filter (fun a => decide (a.id ≠ cur))).map
        (fun a => (a, p0Score txt cur a))) with
    | none =>
      cases h2 : pickTop ((l2.filter (fun a => decide (a.id ≠ cur))).map
          (fun a => (a, p0Score txt cur a))) with
      | none => rfl
      | some x2 =>
        exfalso
        unfold pickTop at hpick
        rw [show ((l1.filter (fun a => decide (a.id ≠ cur))).map
          (fun a => (a, p0Score txt cur a))).foldl pickStep none = none from h1,
          show ((l2.filter (fun a => decide (a.id ≠ cur))).map
          (fun a => (a, p0Score txt cur a))).foldl pickStep none = some x2 from h2] at hpick
        cases hpick
    | some x1 =>
      cases h2 : pickTop ((l2.filter (fun a => decide (a.id ≠ cur))).map
          (fun a => (a, p0Score txt cur a))) with
      | none =>
        exfalso
        unfold pickTop at hpick
        rw [show ((l1.filter (fun a => decide (a.id ≠ cur))).map
          (fun a => (a, p0Score txt cur a))).foldl pickStep none = some x1 from h1,
          show ((l2.filter (fun a => decide (a.id ≠ cur))).map
          (fun a => (a, p0Score txt cur a))).foldl pickStep none = none from h2] at hpick
        cases hpick
      | some x2 =>
        unfold pickTop at hpick
        rw [show ((l1.filter (fun a => decide (a.id ≠ cur))).map
          (fun a => (a, p0Score txt cur a))).foldl pickStep none = some x1 from h1,
          show ((l2.filter (fun a => decide (a.id ≠ cur))).map
          (fun a => (a, p0Score txt cur a))).foldl pickStep none = some x2 from h2] at hpick
        simp only [Option.map_some', Option.some.injEq, Prod.mk.injEq] at hpick
        obtain ⟨a1, sc1⟩ := x1
        obtain ⟨a2, sc2⟩ := x2
        simp only at hpick ⊢
        rw [hpick.2]
        by_cases hsc : sc2 > 0
        · rw [if_pos hsc, if_pos hsc]
          simp only [Option.map_some', Option.some.injEq]
          exact hpick.1
        · rw [if_neg hsc, if_neg hsc]

/-- `setPrereq` does not change the strip-projection. -/
theorem strip_setPrereq (a : ProcessedApiData) (k : String) (v : PrereqValue) :
    strip (setPrereq a k v) = strip a := rfl

/-- Updating one action by a strip-preserving function keeps the
strip-projection of the collection. -/
theorem updAt_map_strip (st : List ProcessedApiData) (i : Nat)
    (f : ProcessedApiData → ProcessedApiData) (hf : ∀ a, strip (f a) = strip a) :
    (updAt st i f).map strip = st.map strip := by
  induction st generalizing i with
  | nil => rfl
  | cons a t ih =>
    cases i with
    | zero => simp [updAt, hf]
    | succ n => simp [updAt, ih n]

/-- Running the entry loop of the part_000 linker over a state
strip-equal to `s0` leaves every surviving free-text entry with a
failing match against `s0` itself (besides preserving the
strip-projection, other positions, and the entry keys). -/
theorem linkEntriesF (s0 : List ProcessedApiData) :
    ∀ (entries : List (String × PrereqValue)) (st : List ProcessedApiData) (i : Nat)
      (aid : String) (acur : ProcessedApiData),
      st.map strip = s0.map strip →
      st.get? i = some acur →
      (acur.prerequisites.map Prod.fst).Nodup →
      (entries.map Prod.fst).Nodup →
      (∀ kv ∈ entries, kv ∈ acur.prerequisites) →
      (entries.foldl (linkEntryStep false matcherP0 i aid) st).map strip = s0.map strip ∧
      (∀ i', i' ≠ i →
        (entries.foldl (linkEntryStep false matcherP0 i aid) st).get? i' = st.get? i') ∧
      ∃ afin, (entries.foldl (linkEntryStep false matcherP0 i aid) st).get? i = some afin ∧
        afin.prerequisites.map Prod.fst = acur.prerequisites.map Prod.fst ∧
        ∀ j k s, afin.prerequisites.get? j = some (k, .str s) →
          acur.prerequisites.get? j = some (k, .str s) ∧
          ((k, PrereqValue.str s) ∈ entries → matcherP0 s s0 aid = none) := by
  intro entries
  induction entries with
  | nil =>
    intro st i aid acur hstrip hget hnodup _ _
    exact ⟨hstrip, fun _ _ => rfl, acur, hget, rfl,
      fun j k s hj => ⟨hj, fun hmem => absurd hmem (List.not_mem_nil _)⟩⟩
  | cons kv rest ih =>
    intro st i aid acur hstrip hget hnodup hekeys hsub
    simp only [List.map_cons, List.nodup_cons] at hekeys
    rw [List.foldl_cons]
    rcases hv : kv.2 with stxt | r0
    case ref =>
      have hstep : linkEntryStep false matcherP0 i aid st kv = st := by
        simp only [linkEntryStep, hv]
      rw [hstep]
      obtain ⟨c1, c2, afin, c3, c4, c5⟩ := ih st i aid acur hstrip hget hnodup hekeys.2
        (fun kv' h => hsub kv' (List.mem_cons_of_mem kv h))
      refine ⟨c1, c2, afin, c3, c4, ?_⟩
      intro j k s hj
      obtain ⟨hacur, hrest⟩ := c5 j k s hj
      refine ⟨hacur, ?_⟩
      intro hmem
      rcases List.mem_cons.mp hmem with heq | hmem2
      · exfalso
        have : kv.2 = PrereqValue.str s := by rw [← heq]
        rw [hv] at this
        cases this
      · exact hrest hmem2
    case str =>
      have hskip : ¬(false = true ∧ stxt.length < 10) := fun hc => by cases hc.1
      cases hmres : matcherP0 stxt st aid with
      | none =>
        have hstep : linkEntryStep false matcherP0 i aid st kv = st := by
          simp only [linkEntryStep, hv]
          rw [if_neg hskip, hmres]
        rw [hstep]
        obtain ⟨c1, c2, afin, c3, c4, c5⟩ := ih st i aid acur hstrip hget hnodup hekeys.2
          (fun kv' h => hsub kv' (List.mem_cons_of_mem kv h))
        refine ⟨c1, c2, afin, c3, c4, ?_⟩
        intro j k s hj
        obtain ⟨hacur, hrest⟩ := c5 j k s hj
        refine ⟨hacur, ?_⟩
        intro hmem
        rcases List.mem_cons.mp hmem with heq | hmem2
        · have hs : s = stxt := by
            have h2 : kv.2 = PrereqValue.str s := by rw [← heq]
            rw [hv] at h2
            injection h2 with h3
            exact h3.symm
          subst hs
          have hcon := matcherP0_strip_congr s aid st s0 hstrip
          rw [hmres] at hcon
          cases hres : matcherP0 s s0 aid with
          | none => rfl
          | some r2 =>
            rw [hres] at hcon
            cases hcon
        · exact hrest hmem2
      | some r =>
        have hstep : linkEntryStep false matcherP0 i aid st kv =
            updAt st i (fun act => setPrereq act kv.1 (.ref ⟨r.id, stxt, r.step_name⟩)) := by
          simp only [linkEntryStep, hv]
          rw [if_neg hskip, hmres]
        rw [hstep]
        have hstrip2 : (updAt st i (fun act =>
            setPrereq act kv.1 (.ref ⟨r.id, stxt, r.step_name⟩))).map strip = s0.map strip := by
          rw [updAt_map_strip _ _ _ (fun a => strip_setPrereq a _ _)]
          exact hstrip
        have hget2 := updAt_get_self st i
          (fun act => setPrereq act kv.1 (.ref ⟨r.id, stxt, r.step_name⟩)) acur hget
        have hnodup2 : ((setPrereq acur kv.1
            (.ref ⟨r.id, stxt, r.step_name⟩)).prerequisites.map Prod.fst).Nodup := by
          rw [setPrereq_keys]
          exact hnodup
        obtain ⟨c1, c2, afin, c3, c4, c5⟩ := ih _ i aid _ hstrip2 hget2 hnodup2 hekeys.2
          (fun kv' h => mem_setPrereq_of_ne acur kv.1 _ kv'
            (hsub kv' (List.mem_cons_of_mem kv h))
            (fun hk => hekeys.1 (hk ▸ List.mem_map_of_mem Prod.fst h)))
        refine ⟨c1, ?_, afin, c3, ?_, ?_⟩
        · intro i' hii
          rw [c2 i' hii, updAt_get_ne st i _ i' hii]
        · rw [c4, setPrereq_keys]
        · intro j k s hj
          obtain ⟨hacur2, hrest⟩ := c5 j k s hj
          -- lift through setPrereq: the rewritten key cannot hold a string
          have hj0 : acur.prerequisites.get? j =
              some (k, PrereqValue.str s) ∧ k ≠ kv.1 := by
            unfold setPrereq at hacur2
            rw [List.get?_map] at hacur2
            cases hkj : acur.prerequisites.get? j with
            | none => rw [hkj] at hacur2; cases hacur2
            | some kvj =>
              rw [hkj] at hacur2
              simp only [Option.map_some', Option.some.injEq] at hacur2
              by_cases hkk : kvj.1 = kv.1
              · rw [if_pos hkk] at hacur2
                exfalso
                have := congrArg Prod.snd hacur2
                cases this
              · rw [if_neg hkk] at hacur2
                constructor
                · rw [hacur2]
                · intro hc
                  apply hkk
                  rw [hacur2]
                  exact hc
          refine ⟨hj0.1, ?_⟩
          intro hmem
          rcases List.mem_cons.mp hmem with heq | hmem2
          · exfalso
            apply hj0.2
            have := congrArg Prod.fst heq
            rw [← this]
          · exact hrest hmem2

/-- Folding the part_000 per-action loop over distinct indices: the
strip-projection is preserved, keys stay duplicate-free, untouched
positions keep their actions, and every processed action's surviving
free-text prerequisite fails to match against `s0`. -/
theorem linkPassF (s0 : List ProcessedApiData) :
    ∀ (idxs : List Nat) (st : List ProcessedApiData),
      idxs.Nodup →
      st.map strip = s0.map strip →
      (∀ i'' a, st.get? i'' = some a → (a.prerequisites.map Prod.fst).Nodup) →
      (idxs.foldl (linkOneAction false matcherP0) st).map strip = s0.map strip ∧
      (∀ i'' a, (idxs.foldl (linkOneAction false matcherP0) st).get? i'' = some a →
        (a.prerequisites.map Prod.fst).Nodup) ∧
      (∀ i', i' ∉ idxs →
        (idxs.foldl (linkOneAction false matcherP0) st).get? i' = st.get? i') ∧
      (∀ i' ∈ idxs, ∀ a', (idxs.foldl (linkOneAction false matcherP0) st).get? i' = some a' →
        ∀ j k s, a'.prerequisites.get? j = some (k, .str s) →
          matcherP0 s s0 a'.id = none) := by
  intro idxs
  induction idxs with
  | nil =>
    intro st _ hstrip hkeys
    exact ⟨hstrip, hkeys, fun _ _ => rfl, fun i' h => absurd h (List.not_mem_nil i')⟩
  | cons i rest ih =>
    intro st hnd hstrip hkeys
    simp only [List.nodup_cons] at hnd
    rw [List.foldl_cons]
    -- analyze linkOneAction at index i
    cases hget : st.get? i with
    | none =>
      have hone : linkOneAction false matcherP0 st i = st := by
        unfold linkOneAction
        rw [hget]
      rw [hone]
      obtain ⟨c1, c2, c3, c4⟩ := ih st hnd.2 hstrip hkeys
      refine ⟨c1, c2, ?_, ?_⟩
      · intro i' hni
        exact c3 i' (fun h => hni (List.mem_cons_of_mem i h))
      · intro i' hmem a' hget' j k s hj
        rcases List.mem_cons.mp hmem with heq | hmem2
        · subst heq
          have h2 := c3 i' hnd.1
          rw [h2, hget] at hget'
          cases hget'
        · exact c4 i' hmem2 a' hget' j k s hj
    | some acur =>
      have hone : linkOneAction false matcherP0 st i =
          acur.prerequisites.foldl (linkEntryStep false matcherP0 i acur.id) st := by
        unfold linkOneAction
        rw [hget]
      rw [hone]
      obtain ⟨d1, d2, afin, d3, d4, d5⟩ := linkEntriesF s0 acur.prerequisites st i acur.id
        acur hstrip hget (hkeys i acur hget) (hkeys i acur hget) (fun _ h => h)
      have hstrip_af : strip afin = strip acur := by
        have h1 := congrArg (fun l => l.get? i) d1
        have h2 := congrArg (fun l => l.get? i) hstrip
        simp only [List.get?_map] at h1 h2
        rw [d3] at h1
        rw [hget] at h2
        simp only [Option.map_some'] at h1 h2
        rw [← h2] at h1
        injection h1
      have hid_af : afin.id = acur.id := by
        have h3 : (strip afin).id = (strip acur).id := congrArg ProcessedApiData.id hstrip_af
        exact h3
      -- keys invariant for the new state
      have hkeys2 : ∀ i'' a, (acur.prerequisites.foldl
          (linkEntryStep false matcherP0 i acur.id) st).get? i'' = some a →
          (a.prerequisites.map Prod.fst).Nodup := by
        intro i'' a hget''
        by_cases hii : i'' = i
        · subst hii
          rw [d3] at hget''
          injection hget'' with he
          subst he
          rw [d4]
          exact hkeys i'' acur hget
        · rw [d2 i'' hii] at hget''
          exact hkeys i'' a hget''
      obtain ⟨c1, c2, c3, c4⟩ := ih _ hnd.2 d1 hkeys2
      refine ⟨c1, c2, ?_, ?_⟩
      · intro i' hni
        have hne : i' ≠ i := fun h => hni (h ▸ List.mem_cons_self i rest)
        rw [c3 i' (fun h => hni (List.mem_cons_of_mem i h)), d2 i' hne]
      · intro i' hmem a' hget' j k s hj
        rcases List.mem_cons.mp hmem with heq | hmem2
        · subst heq
          rw [c3 i' hnd.1, d3] at hget'
          injection hget' with he
          subst he
          obtain ⟨hacur, hmem3⟩ := d5 j k s hj
          rw [hid_af]
          exact hmem3 (List.get?_mem hacur)
        · exact c4 i' hmem2 a' hget' j k s hj

/-- On a collection whose every surviving free-text prerequisite
already fails to match (against a strip-equal reference collection),
one part_000 linking pass is the identity. -/
theorem linkPass_noop (s0 T : List ProcessedApiData)
    (hstrip : T.map strip = s0.map strip)
    (hF : ∀ i a', T.get? i = some a' → ∀ j k s,
      a'.prerequisites.get? j = some (k, .str s) → matcherP0 s s0 a'.id = none) :
    linkPass false matcherP0 T = T := by
  have hsteps : ∀ (entries : List (String × PrereqValue)) (i : Nat) (a : ProcessedApiData),
      T.get? i = some a → (∀ kv ∈ entries, kv ∈ a.prerequisites) →
      entries.foldl (linkEntryStep false matcherP0 i a.id) T = T := by
    intro entries
    induction entries with
    | nil => intro i a _ _; rfl
    | cons kv rest ihe =>
      intro i a hget hsub
      rw [List.foldl_cons]
      have hstep : linkEntryStep false matcherP0 i a.id T kv = T := by
        rcases hv : kv.2 with stxt | r0
        · simp only [linkEntryStep, hv]
          rw [if_neg (fun hc : false = true ∧ stxt.length < 10 => by cases hc.1)]
          have hmemkv := hsub kv (List.mem_cons_self kv rest)
          rcases List.mem_iff_get?.mp hmemkv with ⟨j, hj⟩
          have hj2 : a.prerequisites.get? j = some (kv.1, PrereqValue.str stxt) := by
            rw [hj]
            rw [show kv = (kv.1, PrereqValue.str stxt) from Prod.ext rfl hv]
          have hnone := hF i a hget j kv.1 stxt hj2
          have hcon := matcherP0_strip_congr stxt a.id T s0 hstrip
          rw [hnone] at hcon
          cases hres : matcherP0 stxt T a.id with
          | none => rfl
          | some r2 => rw [hres] at hcon; cases hcon
        · simp only [linkEntryStep, hv]
      rw [hstep]
      exact ihe i a hget (fun kv' h => hsub kv' (List.mem_cons_of_mem kv h))
  have hone : ∀ (idxs : List Nat), idxs.foldl (linkOneAction false matcherP0) T = T := by
    intro idxs
    induction idxs with
    | nil => rfl
    | cons i rest ihx =>
      rw [List.foldl_cons]
      have h1 : linkOneAction false matcherP0 T i = T := by
        unfold linkOneAction
        cases hget : T.get? i with
        | none => rfl
        | some a => exact hsteps a.prerequisites i a hget (fun _ h => h)
      rw [h1]
      exact ihx
  unfold linkPass
  exact hone (List.range T.length)

/-- The part_000 linker is idempotent: running it on its own output
changes nothing (for collections whose per-action prerequisite keys
are duplicate-free, as JS objects guarantee). -/
theorem linkP0_idempotent (actions : List ProcessedApiData)
    (hkeys : ∀ a ∈ actions, (a.prerequisites.map Prod.fst).Nodup) :
    linkActionPrerequisitesP0 matcherP0 (linkActionPrerequisitesP0 matcherP0 actions) =
      linkActionPrerequisitesP0 matcherP0 actions := by
  unfold linkActionPrerequisitesP0
  unfold linkPass
  obtain ⟨c1, _, _, c4⟩ := linkPassF actions (List.range actions.length) actions
    (List.nodup_range actions.length) rfl (fun _ a h => hkeys a (List.get?_mem h))
  have hlenT : ((List.range actions.length).foldl
      (linkOneAction false matcherP0) actions).length = actions.length := by
    have := congrArg List.length c1
    simpa using this
  have hF : ∀ i a', ((List.range actions.length).foldl
      (linkOneAction false matcherP0) actions).get? i = some a' →
      ∀ j k s, a'.prerequisites.get? j = some (k, .str s) →
        matcherP0 s actions a'.id = none := by
    intro i a' hget' j k s hj
    have hi : i < actions.length := by
      by_contra hge
      have : ((List.range actions.length).foldl
          (linkOneAction false matcherP0) actions).get? i = none :=
        List.get?_eq_none.mpr (by omega)
      rw [hget'] at this
      cases this
    exact c4 i (List.mem_range.mpr hi) a' hget' j k s hj
  have hnoop := linkPass_noop actions _ c1 hF
  unfold linkPass at hnoop
  rw [hlenT] at hnoop
  rw [hlenT]
  exact hnoop

/-- A linking pass never alters an entry already holding a
`PrerequisiteReference`. -/
theorem linkPass_preserves_refs (sk : Bool) (m : Matcher) (s0 : List ProcessedApiData)
    (hkeys : ∀ a ∈ s0, (a.prerequisites.map Prod.fst).Nodup)
    (i j : Nat) (a : ProcessedApiData) (k : String) (r : PrerequisiteReference)
    (ha : s0.get? i = some a)
    (hent : a.prerequisites.get? j = some (k, .ref r)) :
    ∃ a', (linkPass sk m s0).get? i = some a' ∧
      a'.prerequisites.get? j = some (k, .ref r) := by
  have hrel := linkPass_frame sk m (fun _ _ => True) s0 hkeys (fun _ _ _ _ _ _ => trivial)
  obtain ⟨a', hget', hrelA⟩ := hrel.2 i a ha
  obtain ⟨v', hent', hE⟩ := hrelA.2.2.2.2.2.2.2 j k _ hent
  rcases hE with hE | ⟨s2, r2, hv, _, _, _, _⟩
  · exact ⟨a', hget', by rw [hent', hE]⟩
  · cases hv

/-- C1 (amended): an entry already holding a `PrerequisiteReference` is
never re-resolved or altered by a later run — in the part_000 linker
and in the `util/ai.ts` linker alike, for any matcher — and the
part_000 linker is fully idempotent; full idempotence fails for the
`util/ai.ts` linker (its heuristic scores candidates against their
serialized JSON, which linking itself enlarges), as the recorded
counterexample shows.  Collections are assumed to have duplicate-free
per-action prerequisite keys, as JS objects guarantee. -/
theorem linker_idempotence_and_resolved_preservation
    (actions : List ProcessedApiData)
    (hkeys : ∀ a ∈ actions, (a.prerequisites.map Prod.fst).Nodup) :
    linkActionPrerequisitesP0 matcherP0 (linkActionPrerequisitesP0 matcherP0 actions) =
        linkActionPrerequisitesP0 matcherP0 actions ∧
      (∀ (m : Matcher) (i j : Nat) (a : ProcessedApiData) (k : String)
        (r : PrerequisiteReference),
        actions.get? i = some a → a.prerequisites.get? j = some (k, .ref r) →
        ∃ a', (linkActionPrerequisitesP0 m actions).get? i = some a' ∧
          a'.prerequisites.get? j = some (k, .ref r)) ∧
      (∀ (m : Matcher) (i j : Nat) (a : ProcessedApiData) (k : String)
        (r : PrerequisiteReference),
        1 < actions.length → ¬(validateAndCleanActions actions).isEmpty = true →
        (validateAndCleanActions actions).get? i = some a →
        a.prerequisites.get? j = some (k, .ref r) →
        ∃ a', (AiTs.linkActionPrerequisites m actions).get? i = some a' ∧
          a'.prerequisites.get? j = some (k, .ref r)) := by
  refine ⟨linkP0_idempotent actions hkeys, ?_, ?_⟩
  · intro m i j a k r ha hent
    exact linkPass_preserves_refs false m actions hkeys i j a k r ha hent
  · intro m i j a k r hlen hval ha hent
    unfold AiTs.linkActionPrerequisites
    rw [if_neg (by omega : ¬ actions.length ≤ 1), if_neg hval]
    have hkeysV : ∀ b ∈ validateAndCleanActions actions,
        (b.prerequisites.map Prod.fst).Nodup :=
      fun b hb => hkeys b (List.mem_of_mem_filter hb)
    exact linkPass_preserves_refs true m (validateAndCleanActions actions) hkeysV
      i j a k r ha hent

/-- A demo action already carrying a resolved reference. -/
def refAct1 : ProcessedApiData :=
  { id := "r1", step_name := "First", action := "do_first",
    inputs := [], prerequisites := [("k", .ref ⟨"r2", "already satisfied here", "Second"⟩)],
    api_config := { url := "http://x.test/1", method := "GET" },
    response_schema := [] }

/-- A second demo action. -/
def refAct2 : ProcessedApiData :=
  { id := "r2", step_name := "Second", action := "do_second",
    inputs := [], prerequisites := [],
    api_config := { url := "http://x.test/2", method := "POST" },
    response_schema := [] }

/-- A two-action collection whose first action already carries a
resolved reference. -/
def refColl : List ProcessedApiData := [refAct1, refAct2]

/-- Witness for the amended C1: part_000 idempotence at the concrete
three-action collection, and preservation of a concrete resolved
reference through both linkers. -/
theorem linker_idempotence_and_resolved_preservation_witness :
    linkActionPrerequisitesP0 matcherP0 (linkActionPrerequisitesP0 matcherP0 coll) =
        linkActionPrerequisitesP0 matcherP0 coll ∧
      (∃ a', (linkActionPrerequisitesP0 matcherP0 refColl).get? 0 = some a' ∧
        a'.prerequisites.get? 0 = some ("k", .ref ⟨"r2", "already satisfied here", "Second"⟩)) ∧
      (∃ a', (AiTs.linkActionPrerequisites matcherAi refColl).get? 0 = some a' ∧
        a'.prerequisites.get? 0 = some ("k", .ref ⟨"r2", "already satisfied here", "Second"⟩)) :=
  ⟨(linker_idempotence_and_resolved_preservation coll (by decide)).1,
    (linker_idempotence_and_resolved_preservation refColl (by decide)).2.1 matcherP0 0 0 refAct1
      "k" ⟨"r2", "already satisfied here", "Second"⟩ (by decide) (by decide),
    (linker_idempotence_and_resolved_preservation refColl (by decide)).2.2 matcherAi 0 0 refAct1
      "k" ⟨"r2", "already satisfied here", "Second"⟩ (by decide) (by decide) (by decide) (by decide)⟩

/-- Characters strictly before the seam are unchanged by appending. -/
theorem wordAt_append_sep (t s : List Char) (i : Nat) (h : i < t.length) :
    wordAt (t ++ '"' :: s) i = wordAt t i := by
  unfold wordAt
  rw [List.get?_append h]

/-- Out-of-range positions are non-word positions. -/
theorem wordAt_of_length_le (t : List Char) (i : Nat) (h : t.length ≤ i) :
    wordAt t i = false := by
  unfold wordAt
  rw [List.get?_eq_none.mpr h]

/-- The seam position holds the quote, a non-word character. -/
theorem wordAt_append_sep_seam (t s : List Char) :
    wordAt (t ++ '"' :: s) t.length = false := by
  unfold wordAt
  rw [List.get?_append_right (le_refl _)]
  simp [isWordChar]

/-- Word boundaries at positions up to the seam are unchanged: the
quote is a non-word character, just like the absent position past the
end of the original text. -/
theorem boundaryAt_append_sep (t s : List Char) (i : Nat) (h : i ≤ t.length) :
    boundaryAt (t ++ '"' :: s) i = boundaryAt t i := by
  unfold boundaryAt
  rcases Nat.lt_or_ge i t.length with hi | hi
  · rw [wordAt_append_sep t s i hi]
    rcases Nat.eq_zero_or_pos i with h0 | h0
    · simp [h0]
    · have h0' : ¬ (i = 0) := by omega
      simp only [if_neg h0']
      rw [wordAt_append_sep t s (i - 1) (by omega)]
  · have hL : i = t.length := le_antisymm h hi
    subst hL
    rw [wordAt_append_sep_seam, wordAt_of_length_le t _ (le_refl _)]
    rcases Nat.eq_zero_or_pos t.length with h0 | h0
    · simp [h0]
    · have h0' : ¬ (t.length = 0) := by omega
      simp only [if_neg h0']
      rw [wordAt_append_sep t s (t.length - 1) (by omega)]

/-- `takeWhile` never crosses a rejected separator character. -/
theorem takeWhile_append_sep (f : Char → Bool) (hf : f '"' = false) (r : List Char) :
    ∀ l : List Char, (l ++ '"' :: r).takeWhile f = l.takeWhile f := by
  intro l
  induction l with
  | nil => simp [List.takeWhile_cons, hf]
  | cons a l ih =>
    rw [List.cons_append, List.takeWhile_cons, List.takeWhile_cons]
    cases f a <;> simp [ih]

/-- Greedy runs below the seam are unchanged when the run class rejects
the quote. -/
theorem runLen_append_sep (f : Char → Bool) (t s : List Char) (i : Nat)
    (h : i ≤ t.length) (hf : f '"' = false) :
    runLen f (t ++ '"' :: s) i = runLen f t i := by
  unfold runLen
  rw [List.drop_append_eq_append_drop, Nat.sub_eq_zero_of_le h, List.drop_zero,
    takeWhile_append_sep f hf]

/-- A greedy run is bounded by the remaining text. -/
theorem runLen_le (f : Char → Bool) (t : List Char) (i : Nat) :
    runLen f t i ≤ t.length - i := by
  unfold runLen
  calc ((t.drop i).takeWhile f).length ≤ (t.drop i).length :=
        (List.takeWhile_sublist f).length_le
    _ = t.length - i := List.length_drop i t

/-- A position holding a character is in range. -/
theorem lt_length_of_get?_eq_some {t : List Char} {i : Nat} {d : Char}
    (hg : t.get? i = some d) : i < t.length := by
  by_contra hc
  push_neg at hc
  rw [List.get?_eq_none.mpr hc] at hg
  cases hg

/-- Candidate end positions of one element never leave the text. -/
theorem elemEnds_le (t : List Char) (i : Nat) (h : i ≤ t.length) (el : RElem) :
    ∀ e ∈ elemEnds t i el, e ≤ t.length := by
  intro e he
  cases el with
  | lit c =>
    simp only [elemEnds] at he
    cases hg : t.get? i with
    | none => rw [hg] at he; cases he
    | some d =>
      rw [hg] at he
      have hlt := lt_length_of_get?_eq_some hg
      by_cases hd : asciiLower d = c
      · simp [hd] at he
        omega
      · simp [hd] at he
  | one f =>
    simp only [elemEnds] at he
    cases hg : t.get? i with
    | none => rw [hg] at he; cases he
    | some d =>
      rw [hg] at he
      have hlt := lt_length_of_get?_eq_some hg
      by_cases hd : f d = true
      · simp [hd] at he
        omega
      · simp [hd] at he
  | many1 f =>
    simp only [elemEnds] at he
    simp only [List.mem_map, List.mem_range] at he
    obtain ⟨k, hk, hke⟩ := he
    have := runLen_le f t i
    omega
  | many0 f =>
    simp only [elemEnds] at he
    simp only [List.mem_map, List.mem_range] at he
    obtain ⟨k, hk, hke⟩ := he
    have := runLen_le f t i
    omega
  | opt c =>
    simp only [elemEnds] at he
    cases hg : t.get? i with
    | none => rw [hg] at he; simp at he; omega
    | some d =>
      rw [hg] at he
      have hlt := lt_length_of_get?_eq_some hg
      by_cases hd : asciiLower d = c
      · simp [hd] at he
        rcases he with he | he <;> omega
      · simp [hd] at he
        omega
  | wb =>
    simp only [elemEnds] at he
    by_cases hb : boundaryAt t i = true
    · simp [hb] at he
      omega
    · simp [hb] at he

/-- Below the seam, a quote-rejecting element has the same candidate
end positions before and after the append. -/
theorem elemEnds_append_sep (t s : List Char) (i : Nat) (h : i ≤ t.length)
    (el : RElem) (hel : goodElem el = true) :
    elemEnds (t ++ '"' :: s) i el = elemEnds t i el := by
  cases el with
  | lit c =>
    simp only [goodElem, decide_eq_true_eq] at hel
    rcases Nat.lt_or_ge i t.length with hi | hi
    · unfold elemEnds
      rw [List.get?_append hi]
    · have hL : i = t.length := le_antisymm h hi
      subst hL
      simp only [elemEnds]
      rw [List.get?_append_right (le_refl _), List.get?_eq_none.mpr (le_refl _)]
      simp only [Nat.sub_self]
      have : asciiLower '"' ≠ c := by
        intro hc
        exact hel (by rw [← hc]; rfl)
      simp [this]
  | one f =>
    simp only [goodElem, Bool.not_eq_true'] at hel
    rcases Nat.lt_or_ge i t.length with hi | hi
    · unfold elemEnds
      rw [List.get?_append hi]
    · have hL : i = t.length := le_antisymm h hi
      subst hL
      simp only [elemEnds]
      rw [List.get?_append_right (le_refl _), List.get?_eq_none.mpr (le_refl _)]
      simp only [Nat.sub_self]
      simp [hel]
  | many1 f =>
    simp only [goodElem, Bool.not_eq_true'] at hel
    simp only [elemEnds]
    rw [runLen_append_sep f t s i h hel]
  | many0 f =>
    simp only [goodElem, Bool.not_eq_true'] at hel
    simp only [elemEnds]
    rw [runLen_append_sep f t s i h hel]
  | opt c =>
    simp only [goodElem, decide_eq_true_eq] at hel
    rcases Nat.lt_or_ge i t.length with hi | hi
    · unfold elemEnds
      rw [List.get?_append hi]
    · have hL : i = t.length := le_antisymm h hi
      subst hL
      simp only [elemEnds]
      rw [List.get?_append_right (le_refl _), List.get?_eq_none.mpr (le_refl _)]
      simp only [Nat.sub_self]
      have : asciiLower '"' ≠ c := by
        intro hc
        exact hel (by rw [← hc]; rfl)
      simp [this]
  | wb =>
    simp only [elemEnds]
    rw [boundaryAt_append_sep t s i h]

/-- Pointwise-equal functions give equal `flatMap`s. -/
theorem flatMap_congr_fn {α β : Type} {f g : α → List β} :
    ∀ {l : List α}, (∀ a ∈ l, f a = g a) → l.flatMap f = l.flatMap g := by
  intro l
  induction l with
  | nil => intro _; rfl
  | cons a l ih =>
    intro h
    simp only [List.flatMap_cons]
    rw [h a (List.mem_cons_self a l), ih (fun x hx => h x (List.mem_cons_of_mem a hx))]

/-- Match end positions never leave the text. -/
theorem matchEnds_le (t : List Char) :
    ∀ (p : List RElem) (i : Nat), i ≤ t.length →
      ∀ e ∈ matchEnds t p i, e ≤ t.length := by
  intro p
  induction p with
  | nil =>
    intro i h e he
    simp only [matchEnds, List.mem_singleton] at he
    omega
  | cons el rest ih =>
    intro i h e he
    simp only [matchEnds, List.mem_flatMap] at he
    obtain ⟨j, hj, hej⟩ := he
    exact ih j (elemEnds_le t i h el j hj) e hej

/-- Below the seam, a quote-free pattern has the same candidate match
ends before and after the append, in the same preference order. -/
theorem matchEnds_append_sep (t s : List Char) :
    ∀ (p : List RElem), p.all goodElem = true →
      ∀ i, i ≤ t.length → matchEnds (t ++ '"' :: s) p i = matchEnds t p i := by
  intro p
  induction p with
  | nil => intro _ i _; rfl
  | cons el rest ih =>
    intro hall i h
    simp only [List.all_cons, Bool.and_eq_true] at hall
    simp only [matchEnds]
    rw [elemEnds_append_sep t s i h el hall.1]
    exact flatMap_congr_fn (fun j hj => ih hall.2 j (elemEnds_le t i h el j hj))

/-- Below the seam, the selected match end is unchanged. -/
theorem matchFrom_append_sep (t s : List Char) (p : List RElem)
    (hp : p.all goodElem = true) (i : Nat) (h : i ≤ t.length) :
    matchFrom (t ++ '"' :: s) p i = matchFrom t p i := by
  unfold matchFrom
  rw [matchEnds_append_sep t s p hp i h]

/-- A selected match end never leaves the text. -/
theorem matchFrom_le (t : List Char) (p : List RElem) (i e : Nat)
    (h : i ≤ t.length) (hm : matchFrom t p i = some e) : e ≤ t.length := by
  unfold matchFrom at hm
  have hmem : e ∈ matchEnds t p i := by
    cases hme : matchEnds t p i with
    | nil => rw [hme] at hm; cases hm
    | cons x xs =>
      rw [hme] at hm
      have hx : x = e := by simpa using hm
      rw [← hx]
      exact List.mem_cons_self x xs
  exact matchEnds_le t p i h e hmem

/-- The global scan is insensitive to the fuel bound once it suffices. -/
theorem scanFrom_fuel (t : List Char) (p : List RElem) :
    ∀ n m i, t.length + 1 ≤ n + i → t.length + 1 ≤ m + i →
      scanFrom t p n i = scanFrom t p m i := by
  intro n
  induction n with
  | zero =>
    intro m i hn hm
    have hi : t.length < i := by omega
    cases m with
    | zero => rfl
    | succ m => simp only [scanFrom, if_pos hi]
  | succ n ih =>
    intro m i hn hm
    cases m with
    | zero =>
      have hi : t.length < i := by omega
      simp only [scanFrom, if_pos hi]
    | succ m =>
      by_cases hi : t.length < i
      · simp only [scanFrom, if_pos hi]
      · cases hmf : matchFrom t p i with
        | some e =>
          have h1 : i + 1 ≤ max e (i + 1) := le_max_right e (i + 1)
          simp only [scanFrom, if_neg hi, hmf]
          rw [ih m (max e (i + 1)) (by omega) (by omega)]
        | none =>
          simp only [scanFrom, if_neg hi, hmf]
          rw [ih m (i + 1) (by omega) (by omega)]

/-- Below the seam the scan of the extended text reproduces the scan of
the original text and then possibly appends further matches found at or
past the seam. -/
theorem scanFrom_append_sep (t s : List Char) (p : List RElem)
    (hp : p.all goodElem = true) :
    ∀ (n i : Nat), i ≤ t.length + 1 →
      ∃ rest, scanFrom (t ++ '"' :: s) p n i = scanFrom t p n i ++ rest := by
  intro n
  induction n with
  | zero => intro i _; exact ⟨[], rfl⟩
  | succ n ih =>
    intro i h
    rcases Nat.lt_or_ge t.length i with hi | hi
    · refine ⟨scanFrom (t ++ '"' :: s) p (n + 1) i, ?_⟩
      have ht : scanFrom t p (n + 1) i = [] := by
        simp only [scanFrom, if_pos hi]
      rw [ht, List.nil_append]
    · have hi2 : ¬ ((t ++ '"' :: s).length < i) := by
        simp only [List.length_append, List.length_cons]
        omega
      have hi1 : ¬ (t.length < i) := by omega
      cases hmf : matchFrom t p i with
      | some e =>
        have he : e ≤ t.length := matchFrom_le t p i e hi hmf
        have h1 : i + 1 ≤ max e (i + 1) := le_max_right e (i + 1)
        have h2 : max e (i + 1) ≤ t.length + 1 := by omega
        obtain ⟨rest, hrest⟩ := ih (max e (i + 1)) h2
        refine ⟨rest, ?_⟩
        simp only [scanFrom, if_pos, if_neg hi1, if_neg hi2,
          matchFrom_append_sep t s p hp i hi, hmf]
        rw [hrest, List.cons_append]
      | none =>
        obtain ⟨rest, hrest⟩ := ih (i + 1) (by omega)
        refine ⟨rest, ?_⟩
        simp only [scanFrom, if_neg hi1, if_neg hi2,
          matchFrom_append_sep t s p hp i hi, hmf]
        exact hrest

/-- Every span the scan reports lies inside the text. -/
theorem scanFrom_spans_le (t : List Char) (p : List RElem) :
    ∀ (n i : Nat), ∀ ab ∈ scanFrom t p n i, ab.1 ≤ t.length ∧ ab.2 ≤ t.length := by
  intro n
  induction n with
  | zero => intro i ab hab; cases hab
  | succ n ih =>
    intro i ab hab
    by_cases hi : t.length < i
    · rw [scanFrom, if_pos hi] at hab
      cases hab
    · cases hmf : matchFrom t p i with
      | some e =>
        simp only [scanFrom, if_neg hi, hmf] at hab
        rcases List.mem_cons.mp hab with hab | hab
        · subst hab
          exact ⟨by omega, matchFrom_le t p i e (by omega) hmf⟩
        · exact ih (max e (i + 1)) ab hab
      | none =>
        simp only [scanFrom, if_neg hi, hmf] at hab
        exact ih (i + 1) ab hab

/-- The scan of the quote-extended text is the scan of the original
text followed by extra matches. -/
theorem scanMatches_append_sep (t s : List Char) (p : List RElem)
    (hp : p.all goodElem = true) :
    ∃ rest, scanMatches (t ++ '"' :: s) p = scanMatches t p ++ rest := by
  obtain ⟨rest, hrest⟩ :=
    scanFrom_append_sep t s p hp ((t ++ '"' :: s).length + 1) 0 (by omega)
  refine ⟨rest, ?_⟩
  unfold scanMatches
  rw [hrest]
  congr 1
  exact scanFrom_fuel t p ((t ++ '"' :: s).length + 1) (t.length + 1) 0
    (by simp only [List.length_append, List.length_cons]; omega) (by omega)

/-- Match counts never decrease across a quote seam. -/
theorem scanCount_append_sep (t s : List Char) (p : List RElem)
    (hp : p.all goodElem = true) :
    scanCount t p ≤ scanCount (t ++ '"' :: s) p := by
  obtain ⟨rest, h⟩ := scanMatches_append_sep t s p hp
  unfold scanCount
  rw [h, List.length_append]
  omega

/-- Match presence survives a quote seam. -/
theorem hasMatch_append_sep (t s : List Char) (p : List RElem)
    (hp : p.all goodElem = true) (h : hasMatch t p = true) :
    hasMatch (t ++ '"' :: s) p = true := by
  obtain ⟨rest, hr⟩ := scanMatches_append_sep t s p hp
  unfold hasMatch at h ⊢
  rw [hr]
  cases hm : scanMatches t p with
  | nil =>
    rw [hm] at h
    simp at h
  | cons x xs => rfl

/-- Spans inside the original text read the same substring after the
append. -/
theorem spanStr_append_sep (t s : List Char) (a b : Nat)
    (ha : a ≤ t.length) (hb : b ≤ t.length) :
    spanStr (t ++ '"' :: s) (a, b) = spanStr t (a, b) := by
  unfold spanStr
  congr 1
  rw [List.drop_append_eq_append_drop, Nat.sub_eq_zero_of_le ha, List.drop_zero,
    List.take_append_eq_append_take]
  have h1 : b - a ≤ (t.drop a).length := by
    rw [List.length_drop]
    omega
  rw [Nat.sub_eq_zero_of_le h1, List.take_zero, List.append_nil]

/-- Every endpoint-indicator pattern is quote-free. -/
theorem endpointIndicatorPats_good :
    ∀ p ∈ endpointIndicatorPats, p.all goodElem = true := by decide

/-- Every section-indicator pattern is quote-free. -/
theorem sectionIndicatorPats_good :
    ∀ p ∈ sectionIndicatorPats, p.all goodElem = true := by decide

/-- Every HTTP-verb word pattern is quote-free. -/
theorem httpVerbPats_good :
    ∀ m ∈ httpVerbs, (wordPat m).all goodElem = true := by decide

/-- The URL pattern is quote-free. -/
theorem urlPat_good : urlPat.all goodElem = true := by decide

/-- The numbered-section pattern is quote-free. -/
theorem numberedPat_good : numberedPat.all goodElem = true := by decide

/-- The five trigger conditions of `detectMultipleApiEndpoints`, spelled
out (the `let`s of the definition are transparent). -/
theorem detect_unfold (content : String) :
    detectMultipleApiEndpoints content =
      (decide (1 < (endpointIndicatorPats.map (fun p => scanCount content.data p)).sum) ||
       sectionIndicatorPats.any (fun p => hasMatch content.data p) ||
       decide (2 ≤ ((httpVerbs.map (fun m => scanCount content.data (wordPat m))).filter
         (fun c => 1 < c)).length) ||
       decide (1 < (((scanMatches content.data urlPat).map (spanStr content.data)).filter
         (fun u => strIncludes u "/api/" || strIncludes u "/v1/" || strIncludes u "/v2/" ||
           strIncludes u "/rest/")).length) ||
       decide (0 < scanCount content.data numberedPat)) := rfl


/-- C4 counterexample: detectMultipleApiEndpoints is not monotonic under
concatenation.  The text "1. Foo API" triggers the numbered-section
pattern (its trailing word boundary sits at the end of the text), but
appending the single letter "s" turns the boundary into a word-word
position and enlarges the greedy letter run, so no pattern matches and
the detector flips back to false. -/
theorem detectMultipleApiEndpoints_not_monotone :
    detectMultipleApiEndpoints "1. Foo API" = true ∧
      detectMultipleApiEndpoints ("1. Foo API" ++ "s") = false := by decide

/-- C4 (amended): detectMultipleApiEndpoints is monotonic under
quote-separated extension: if text T triggers true, then T followed by
a double quote and arbitrary further text also triggers true.  The
quote character is rejected by every literal, character class and
greedy run of the detector patterns and is not a word character, so
every match of the original text survives verbatim and the appended
text can only contribute additional matches; all five trigger
conditions are monotone in the match lists.  (Unrestricted
concatenation is refuted by the counterexample above.) -/
theorem detectMultipleApiEndpoints_monotone_after_quote (T S : String)
    (h : detectMultipleApiEndpoints T = true) :
    detectMultipleApiEndpoints (T ++ "\"" ++ S) = true := by
  have hdata : (T ++ "\"" ++ S).data = T.data ++ '"' :: S.data := by
    show (T.data ++ ['"']) ++ S.data = T.data ++ '"' :: S.data
    simp
  rw [detect_unfold] at h
  rw [detect_unfold, hdata]
  simp only [Bool.or_eq_true, decide_eq_true_eq] at h ⊢
  rcases h with (((h1 | h2) | h3) | h4) | h5
  · refine Or.inl (Or.inl (Or.inl (Or.inl ?_)))
    have hle : (endpointIndicatorPats.map (fun p => scanCount T.data p)).sum ≤
        (endpointIndicatorPats.map (fun p => scanCount (T.data ++ '"' :: S.data) p)).sum :=
      List.sum_le_sum
        (fun p hp => scanCount_append_sep T.data S.data p (endpointIndicatorPats_good p hp))
    omega
  · refine Or.inl (Or.inl (Or.inl (Or.inr ?_)))
    rw [List.any_eq_true] at h2 ⊢
    obtain ⟨p, hp, hm⟩ := h2
    exact ⟨p, hp, hasMatch_append_sep T.data S.data p (sectionIndicatorPats_good p hp) hm⟩
  · refine Or.inl (Or.inl (Or.inr ?_))
    have e1 : ∀ u : List Char,
        ((httpVerbs.map (fun m => scanCount u (wordPat m))).filter
          (fun c => decide (1 < c))).length =
        httpVerbs.countP (fun m => decide (1 < scanCount u (wordPat m))) := by
      intro u
      rw [← List.countP_eq_length_filter, List.countP_map]
      rfl
    rw [e1] at h3 ⊢
    have hmono : httpVerbs.countP (fun m => decide (1 < scanCount T.data (wordPat m))) ≤
        httpVerbs.countP
          (fun m => decide (1 < scanCount (T.data ++ '"' :: S.data) (wordPat m))) := by
      apply List.countP_mono_left
      intro m hm hc
      simp only [decide_eq_true_eq] at hc ⊢
      exact lt_of_lt_of_le hc (scanCount_append_sep T.data S.data (wordPat m)
        (httpVerbPats_good m hm))
    omega
  · refine Or.inl (Or.inr ?_)
    obtain ⟨rest, hr⟩ := scanMatches_append_sep T.data S.data urlPat urlPat_good
    rw [hr, List.map_append, List.filter_append, List.length_append]
    have hmapeq : (scanMatches T.data urlPat).map (spanStr (T.data ++ '"' :: S.data)) =
        (scanMatches T.data urlPat).map (spanStr T.data) := by
      apply List.map_congr_left
      intro ab hab
      obtain ⟨a, b⟩ := ab
      have hb := scanFrom_spans_le T.data urlPat (T.data.length + 1) 0 (a, b) hab
      exact spanStr_append_sep T.data S.data a b hb.1 hb.2
    rw [hmapeq]
    omega
  · refine Or.inr ?_
    have := scanCount_append_sep T.data S.data numberedPat numberedPat_good
    omega


/-- Witness for the amended C4: the trigger text "Endpoints" keeps
triggering after a quote-separated extension. -/
theorem detectMultipleApiEndpoints_monotone_after_quote_witness :
    detectMultipleApiEndpoints ("Endpoints" ++ "\"" ++ " plus unrelated text") = true :=
  detectMultipleApiEndpoints_monotone_after_quote "Endpoints" " plus unrelated text" (by decide)
